import Mathlib

/-!
telegraf_fritzbox: the polling / formatting engine of `main.go`

A shallow embedding of `src/main.go` and the properties of its metric-line
formatter (`Result.influxString`, `ServiceResults.influxString`) and of the
poll loop in `main` with its single-slot call cache.

Go strings are modelled as `String`; `fmt.Sprintf` with `%s` verbs is string
concatenation.  The two `strconv` functions the formatter calls are modelled
from the documented behaviour of the Go standard library.
-/

set_option autoImplicit false

/-! ## `strconv`: integer and floating-point parsing -/

namespace strconv

/-- Size in bits of the Go type `int` (`strconv.IntSize`) on 64-bit targets. -/
def intSize : Nat := 64

/-- Decimal digit test, the Go condition `'0' <= c && c <= '9'`. -/
def isDigit (c : Char) : Bool :=
  decide (48 ≤ c.toNat) && decide (c.toNat ≤ 57)

/-- Value of a decimal digit, the Go expression `c - '0'`. -/
def digitVal (c : Char) : Nat := c.toNat - 48

/-- Letters `a..f` in either case, the Go condition
`'a' <= lower(c) && lower(c) <= 'f'`. -/
def isHexLetter (c : Char) : Bool :=
  (decide (97 ≤ c.toNat) && decide (c.toNat ≤ 102)) ||
    (decide (65 ≤ c.toNat) && decide (c.toNat ≤ 70))

/-- Value of a hexadecimal letter, the Go expression `lower(c) - 'a' + 10`. -/
def hexVal (c : Char) : Nat :=
  if 97 ≤ c.toNat then c.toNat - 97 + 10 else c.toNat - 65 + 10

/-- The digit loop of `ParseUint(s, 10, _)`: the value of a run of decimal
digits, or `none` at the first character that is not a decimal digit (base 10
admits neither letters nor underscores).  The accumulator is exact. -/
def parseDigits : List Char → Nat → Option Nat
  | [], n => some n
  | c :: cs, n => if isDigit c then parseDigits cs (n * 10 + digitVal c) else none

/-- `ParseUint(s, 10, 0)`: `none` stands for a non-nil error (empty input, a
character that is no digit, or a value that does not fit 64 bits). -/
def ParseUint (s : List Char) : Option Nat :=
  match s with
  | [] => none
  | _ =>
    match parseDigits s 0 with
    | none => none
    | some n => if n < 2 ^ 64 then some n else none

/-- `ParseInt(s, 10, 0)`: optional sign, then `ParseUint`, then the range test
against `cutoff = 1 << (IntSize - 1)`.  `none` stands for a non-nil error. -/
def ParseInt (s : List Char) : Option Int :=
  match s with
  | [] => none
  | c :: t =>
    let neg := c == '-'
    let body := if c == '+' || c == '-' then t else s
    match ParseUint body with
    | none => none
    | some un =>
      let cutoff : Nat := 2 ^ (intSize - 1)
      if !neg && decide (cutoff ≤ un) then none
      else if neg && decide (cutoff < un) then none
      else some (if neg then -(un : Int) else (un : Int))

/-- `strconv.Atoi(s)`, which is `ParseInt(s, 10, 0)` converted to `int` (its
fast path for short inputs returns the same results).  `none` stands for a
non-nil error. -/
def Atoi (s : String) : Option Int := ParseInt s.toList

/-- What `ParseFloat` has read, before rounding to a `float64`: an infinity,
a NaN, or `mantissa * base ^ exp` with `base` 10 for decimal and 2 for
hexadecimal input. -/
inductive FloatVal where
  | inf (neg : Bool)
  | nan
  | num (neg : Bool) (hex : Bool) (mantissa : Nat) (exp : Int)
  deriving DecidableEq, Repr

/-- Lower-casing of `A..Z` as done in `commonPrefixLenIgnoreCase`. -/
def lowerAZ (c : Char) : Char :=
  if 65 ≤ c.toNat ∧ c.toNat ≤ 90 then Char.ofNat (c.toNat + 32) else c

/-- `commonPrefixLenIgnoreCase(s, pfx)` for a lower-case `pfx`. -/
def commonPrefixLenIgnoreCase : List Char → List Char → Nat
  | c :: s, p :: pfx => if lowerAZ c = p then commonPrefixLenIgnoreCase s pfx + 1 else 0
  | _, _ => 0

/-- The `case 'i', 'I'` arm of `special`, entered directly or by fallthrough
after a sign: `nsign` characters of sign were consumed before `s`. -/
def specialInf (neg : Bool) (nsign : Nat) (s : List Char) : Option (FloatVal × Nat) :=
  let n := commonPrefixLenIgnoreCase s "infinity".toList
  let n := if 3 < n ∧ n < 8 then 3 else n
  if n = 3 ∨ n = 8 then some (FloatVal.inf neg, nsign + n) else none

/-- `special(s)`: recognises a possibly signed `inf` / `infinity` and an
unsigned `nan`, ignoring case; returns the value and the number of
characters consumed. -/
def special (s : List Char) : Option (FloatVal × Nat) :=
  match s with
  | [] => none
  | c :: t =>
    if c = '+' ∨ c = '-' then specialInf (c == '-') 1 t
    else if c = 'i' ∨ c = 'I' then specialInf false 0 s
    else if c = 'n' ∨ c = 'N' then
      if commonPrefixLenIgnoreCase s "nan".toList = 3 then some (FloatVal.nan, 3) else none
    else none

/-- Loop variables of the mantissa scan of `readFloat`.  `mantissa` holds all
`nd` significant digits exactly (the library keeps the first 19 and a
truncation flag, and re-reads the text when it needs the rest). -/
structure Mant where
  mantissa : Nat
  nd : Nat
  dp : Int
  sawdot : Bool
  sawdigits : Bool
  underscores : Bool
  deriving DecidableEq, Repr

/-- The `loop:` of `readFloat`: consumes underscores, at most one dot, digits
(and hexadecimal letters in base 16); returns the loop variables and the
unread rest. -/
def readMant (base : Nat) : List Char → Mant → Mant × List Char
  | [], m => (m, [])
  | c :: cs, m =>
    if c = '_' then readMant base cs { m with underscores := true }
    else if c = '.' then
      if m.sawdot then (m, c :: cs)
      else readMant base cs { m with sawdot := true, dp := m.nd }
    else if isDigit c then
      if c = '0' ∧ m.nd = 0 then
        readMant base cs { m with sawdigits := true, dp := m.dp - 1 }
      else
        readMant base cs { m with sawdigits := true, nd := m.nd + 1,
                                  mantissa := m.mantissa * base + digitVal c }
    else if base = 16 ∧ isHexLetter c = true then
      readMant base cs { m with sawdigits := true, nd := m.nd + 1,
                                mantissa := m.mantissa * 16 + hexVal c }
    else (m, c :: cs)

/-- The exponent digit loop of `readFloat`: digits and underscores, the
exponent saturating once it has reached 10000. -/
def readExpDigits : List Char → Nat → Bool → Nat × Bool × List Char
  | [], e, u => (e, u, [])
  | c :: cs, e, u =>
    if c = '_' then readExpDigits cs e true
    else if isDigit c then readExpDigits cs (if e < 10000 then e * 10 + digitVal c else e) u
    else (e, u, c :: cs)

/-- The loop of `underscoreOK`; `saw` is `'^'`, `'0'`, `'_'` or `'!'` as in
the library. -/
def underscoreLoop (hex : Bool) : List Char → Char → Bool
  | [], saw => saw != '_'
  | c :: cs, saw =>
    if isDigit c || (hex && isHexLetter c) then underscoreLoop hex cs '0'
    else if c = '_' then
      if saw != '0' then false else underscoreLoop hex cs '_'
    else if saw = '_' then false
    else underscoreLoop hex cs '!'

/-- `underscoreOK(s)`: underscores appear only between digits or between a
base prefix and a digit. -/
def underscoreOK (s : List Char) : Bool :=
  let s1 := match s with
    | '-' :: t => t
    | '+' :: t => t
    | _ => s
  match s1 with
  | '0' :: b :: t =>
    if b = 'b' ∨ b = 'B' ∨ b = 'o' ∨ b = 'O' ∨ b = 'x' ∨ b = 'X' then
      underscoreLoop (b == 'x' || b == 'X') t '0'
    else underscoreLoop false s1 '^'
  | _ => underscoreLoop false s1 '^'

/-- Result of `readFloat` when `ok`: sign, base, exact mantissa, exponent of
the base (10, or 2 for hexadecimal), whether underscores were seen, and the
unread rest. -/
structure Read where
  neg : Bool
  hex : Bool
  mantissa : Nat
  exp : Int
  underscores : Bool
  rest : List Char
  deriving DecidableEq, Repr

/-- The optional-exponent part of `readFloat`, entered after the mantissa
with the decimal point position `dp` (already multiplied by 4 for
hexadecimal).  Returns the adjusted `dp`, the underscore flag and the rest,
or `none` where the library returns with `ok` false. -/
def readExp (hex : Bool) (dp : Int) (u : Bool) (s : List Char) :
    Option (Int × Bool × List Char) :=
  match s with
  | [] => if hex then none else some (dp, u, [])
  | c :: t =>
    if (hex = false ∧ (c = 'e' ∨ c = 'E')) ∨ (hex = true ∧ (c = 'p' ∨ c = 'P')) then
      match t with
      | [] => none
      | d :: t1 =>
        let esign : Int := if d = '-' then -1 else 1
        let t2 := if d = '+' ∨ d = '-' then t1 else d :: t1
        match t2 with
        | [] => none
        | d2 :: _ =>
          if isDigit d2 then
            let r := readExpDigits t2 0 u
            some (dp + (r.1 : Int) * esign, r.2.1, r.2.2)
          else none
    else if hex then none
    else some (dp, u, c :: t)

/-- The base test of `readFloat`,
`i+2 < len(s) && s[i] == '0' && lower(s[i+1]) == 'x'`, on the text from
position `i`. -/
def hasHexPrefix (s : List Char) : Bool :=
  match s with
  | c :: x :: _ :: _ => c == '0' && (x == 'x' || x == 'X')
  | _ => false

/-- The part of `readFloat` after the optional sign: `s1` is the text after
the sign of the whole text `s`.  Optional `0x` prefix, mantissa, optional
exponent (mandatory for hexadecimal), and the underscore check on the text
read.  `none` where the library returns with `ok` false. -/
def readNumber (s : List Char) (neg : Bool) (s1 : List Char) : Option Read :=
  let hex : Bool := hasHexPrefix s1
  let s2 := if hex then s1.drop 2 else s1
  let mr := readMant (if hex then 16 else 10) s2 ⟨0, 0, 0, false, false, false⟩
  let m := mr.1
  if m.sawdigits = false then none
  else
    let dp0 : Int := if m.sawdot then m.dp else m.nd
    let dp1 : Int := if hex then dp0 * 4 else dp0
    let ndMant : Int := if hex then (m.nd : Int) * 4 else m.nd
    match readExp hex dp1 m.underscores mr.2 with
    | none => none
    | some (dp, u, rest) =>
      let exp : Int := if m.mantissa ≠ 0 then dp - ndMant else 0
      if u && !underscoreOK (s.take (s.length - rest.length)) then none
      else some ⟨neg, hex, m.mantissa, exp, u, rest⟩

/-- `readFloat(s)`: the optional sign, then the number.  `none` where the
library returns with `ok` false. -/
def readFloat (s : List Char) : Option Read :=
  match s with
  | [] => none
  | c :: t => readNumber s (c == '-') (if c = '+' ∨ c = '-' then t else s)

/-- Least magnitude that rounds (to nearest, ties to even) beyond the largest
finite `float64`: `2^1024 - 2^970`. -/
def overflowThreshold : Nat :=
  179769313486231580793728971405303415079934132710037826936173778980444968292764750946649017977587207096330286416692887910946555547851940402630657488671505820681908902000708383676273854845817711531764475730270069855571366959622842914819860834936475292719074168444365510704342711559699508093042880177904174497792

/-- Whether `mantissa * base ^ exp` rounds to an infinity, in which case the
library reports `ErrRange`. -/
def overflows (base : Nat) (mantissa : Nat) (exp : Int) : Bool :=
  if mantissa = 0 then false
  else if 0 ≤ exp then decide (overflowThreshold ≤ mantissa * base ^ exp.toNat)
  else decide (overflowThreshold * base ^ (-exp).toNat ≤ mantissa)

/-- `strconv.ParseFloat(s, 64)`, keeping what was read instead of the rounded
`float64` (the caller discards the value).  `none` stands for a non-nil
error: malformed text, text left over after the number, or a magnitude out
of the `float64` range. -/
def ParseFloat (s : String) : Option FloatVal :=
  let cs := s.toList
  match special cs with
  | some (v, n) => if n = cs.length then some v else none
  | none =>
    match readFloat cs with
    | none => none
    | some r =>
      if overflows (if r.hex then 2 else 10) r.mantissa r.exp then none
      else if r.rest ≠ [] then none
      else some (FloatVal.num r.neg r.hex r.mantissa r.exp)

end strconv

/-! ## `fmt`, `strings` and the collaborator package `upnp` -/

namespace strings

/-- `strings.Join(elems, sep)`. -/
def Join : List String → String → String
  | [], _ => ""
  | [a], _ => a
  | a :: b :: rest, sep => a ++ sep ++ Join (b :: rest) sep

end strings

namespace upnp

/-- The type `upnp.Result`, a Go map from field name to an interface value.
A value is represented by the text `fmt.Sprint` prints for it; the first
binding of a key is the one the map holds, and `[]` is the nil map. -/
abbrev Result := List (String × String)

/-- The pair `(Result, error)` returned by `Action.Call`; `err = none` is the
nil error, otherwise the text of the error. -/
structure CallReturn where
  result : Result
  err : Option String

/-- An action of the collaborator.  `Call` may depend on and change the
state `W` of the remote device and of the connection to it. -/
structure Action (W : Type) where
  Call : W → CallReturn × W

/-- A service of the collaborator with its map `Actions`. -/
structure Service (W : Type) where
  Actions : String → Option (Action W)

/-- The value returned by `upnp.LoadServices` with its map `Services`. -/
structure Root (W : Type) where
  Services : String → Option (Service W)

end upnp

namespace fmt

/-- `fmt.Sprint(result[key])`: a key that is absent from the map yields the
nil interface, which prints as `<nil>`. -/
def Sprint (v : Option String) : String :=
  match v with
  | none => "<nil>"
  | some t => t

end fmt

/-! ## The types and functions of `main.go` -/

/-- One entry of the table `Actions`. -/
structure ServiceActions where
  Service : String
  Action : String
  Result : String
  Name : String
  deriving DecidableEq, Repr

/-- One named value of a batch. -/
structure Result where
  Name : String
  Value : String
  deriving DecidableEq, Repr

/-- The batch of one poll cycle. -/
structure ServiceResults where
  Name : String
  Results : List Result
  deriving DecidableEq, Repr

/-- The table `Actions` of `main.go`. -/
def Actions : List ServiceActions :=
  [ ⟨"urn:schemas-upnp-org:service:WANCommonInterfaceConfig:1", "GetTotalPacketsReceived",
      "TotalPacketsReceived", "packets_received"⟩,
    ⟨"urn:schemas-upnp-org:service:WANCommonInterfaceConfig:1", "GetTotalPacketsSent",
      "TotalPacketsSent", "packets_sent"⟩,
    ⟨"urn:schemas-upnp-org:service:WANCommonInterfaceConfig:1", "GetAddonInfos",
      "TotalBytesReceived", "bytes_received"⟩,
    ⟨"urn:schemas-upnp-org:service:WANCommonInterfaceConfig:1", "GetAddonInfos",
      "TotalBytesSent", "bytes_sent"⟩,
    ⟨"urn:schemas-upnp-org:service:WANCommonInterfaceConfig:1", "GetAddonInfos",
      "ByteSendRate", "bytes_send_rate"⟩,
    ⟨"urn:schemas-upnp-org:service:WANCommonInterfaceConfig:1", "GetAddonInfos",
      "ByteReceiveRate", "bytes_receive_rate"⟩,
    ⟨"urn:schemas-upnp-org:service:WANCommonInterfaceConfig:1", "GetAddonInfos",
      "PacketSendRate", "packet_send_rate"⟩,
    ⟨"urn:schemas-upnp-org:service:WANCommonInterfaceConfig:1", "GetAddonInfos",
      "PacketReceiveRate", "packet_receive_rate"⟩,
    ⟨"urn:schemas-upnp-org:service:WANCommonInterfaceConfig:1", "GetAddonInfos",
      "NewX_AVM_DE_TotalBytesSent64", "total_bytes_sent_64"⟩,
    ⟨"urn:schemas-upnp-org:service:WANCommonInterfaceConfig:1", "GetAddonInfos",
      "NewX_AVM_DE_TotalBytesReceived64", "total_bytes_received_64"⟩,
    ⟨"urn:schemas-upnp-org:service:WANCommonInterfaceConfig:1", "GetCommonLinkProperties",
      "PhysicalLinkStatus", "link_status"⟩,
    ⟨"urn:schemas-upnp-org:service:WANIPConnection:1", "GetStatusInfo",
      "ConnectionStatus", "connection_status"⟩,
    ⟨"urn:schemas-upnp-org:service:WANIPConnection:1", "GetStatusInfo",
      "LastConnectionError", "last_connection_error"⟩,
    ⟨"urn:schemas-upnp-org:service:WANIPConnection:1", "GetStatusInfo",
      "Uptime", "uptime"⟩ ]

/-- The method `(r *Result) influxString()`: the value is tried as an integer,
then as a float, and is otherwise quoted. -/
def Result.influxString (r : Result) : String :=
  let res :=
    match strconv.Atoi r.Value with
    | none =>
      match strconv.ParseFloat r.Value with
      | none => "\"" ++ r.Value ++ "\""
      | some _ => r.Value
    | some _ => r.Value ++ "i"
  r.Name ++ "=" ++ res

/-- The `for _, r := range sr.Results` loop of
`(sr *ServiceResults) influxString`, from the slice `acc` built so far. -/
def influxResultsLoop : List Result → List String → List String
  | [], acc => acc
  | r :: rs, acc =>
    if r.Value = "<nil>" then influxResultsLoop rs acc
    else influxResultsLoop rs (acc ++ [r.influxString])

/-- The method `(sr *ServiceResults) influxString(bucket, host)`. -/
def ServiceResults.influxString (sr : ServiceResults) (bucket : String) (host : String) :
    String :=
  let pfx := bucket ++ ",host=\"" ++ host ++ "\",source=" ++ sr.Name ++ " "
  let influxResults := influxResultsLoop sr.Results []
  let metrics := strings.Join influxResults ","
  pfx ++ metrics

/-- The variables of `main` that the poll loop reads and writes:
`last_service`, `last_method` and `result` (declared before the loop, never
reset), the batch `sr` of the running cycle, and the effects of the loop:
the state `world` of the collaborator, the invocations `calls` of
`action.Call` made so far (oldest first), the messages written with
`log.Printf` and the lines written to standard output. -/
structure Vars (W : Type) where
  last_service : String
  last_method : String
  result : upnp.Result
  sr : ServiceResults
  world : W
  calls : List (String × String)
  log : List String
  out : List String

/-- Lines 246 to 250: extract `m.Result` from the cached mapping, print it
with `fmt.Sprint` and append the named value to the batch. -/
def appendResult {W : Type} (st : Vars W) (m : ServiceActions) : Vars W :=
  let r : Result := ⟨m.Name, fmt.Sprint (st.result.lookup m.Result)⟩
  { st with sr := { st.sr with Results := st.sr.Results ++ [r] } }

/-- The body of `for _, m := range Actions` (lines 223 to 250) for one table
entry `m`.  Each `continue` ends the body with the variables as they are at
that point. -/
def loopBody {W : Type} (root : upnp.Root W) (st : Vars W) (m : ServiceActions) : Vars W :=
  if m.Service ≠ st.last_service ∨ m.Action ≠ st.last_method then
    match root.Services m.Service with
    | none =>
      { st with log := st.log ++ ["W! Cannot find defined service " ++ m.Service ++ "/n"] }
    | some service =>
      match service.Actions m.Action with
      | none =>
        { st with log := st.log ++
            ["W! Cannot find defined action " ++ m.Action ++ " on service " ++ m.Service ++ "/n"] }
      | some action =>
        let r := action.Call st.world
        let st1 : Vars W :=
          { st with result := r.1.result, world := r.2,
                    calls := st.calls ++ [(m.Service, m.Action)] }
        match r.1.err with
        | some err =>
          { st1 with log := st1.log ++
              ["E! Unable to call action " ++ m.Action ++ " on service " ++ m.Service ++
                ": " ++ err ++ "/n"] }
        | none =>
          appendResult { st1 with last_service := m.Service, last_method := m.Action } m
  else appendResult st m

/-- One iteration of the outer `for` of `main` after the trigger line has
been read (lines 218 to 253): a fresh batch, one pass over `table`, one line
written with `fmt.Println`. -/
def pollCycle {W : Type} (root : upnp.Root W) (table : List ServiceActions) (host : String)
    (st : Vars W) : Vars W :=
  let st0 : Vars W := { st with sr := ⟨"wan", []⟩ }
  let st1 := table.foldl (loopBody root) st0
  { st1 with out := st1.out ++ [st1.sr.influxString "fritzbox" host ++ "\n"] }

/-- The variables of `main` when the outer loop is entered: empty strings
and a nil map (the Go zero values), nothing invoked or written yet. -/
def initVars {W : Type} (w : W) : Vars W :=
  ⟨"", "", [], ⟨"wan", []⟩, w, [], [], []⟩

/-- The variables of `main` after `n` iterations of the outer loop. -/
def pollCycles {W : Type} (root : upnp.Root W) (table : List ServiceActions) (host : String) :
    Nat → Vars W → Vars W
  | 0, st => st
  | n + 1, st => pollCycles root table host n (pollCycle root table host st)

/-- The line a poll cycle writes, without the newline of `fmt.Println`. -/
def cycleLine {W : Type} (root : upnp.Root W) (table : List ServiceActions) (host : String)
    (st : Vars W) : String :=
  (table.foldl (loopBody root) { st with sr := ⟨"wan", []⟩ }).sr.influxString "fritzbox" host

/-- The call `reader.ReadString('\n')` of line 215 on the lines still to
come on standard input: it consumes the next line when there is one and
returns at once with `io.EOF` when there is none.  Both results are
discarded by `main`, so only the remaining input is kept. -/
def readTrigger (stdin : List String) : List String :=
  stdin.drop 1

/-- The first `k` iterations of the outer `for` of `main` (lines 213 to 254),
which has no exit: each iteration reads a trigger and runs one poll cycle.
Returns the input still unread and the variables. -/
def mainLoop {W : Type} (root : upnp.Root W) (table : List ServiceActions) (host : String) :
    Nat → List String → Vars W → List String × Vars W
  | 0, stdin, st => (stdin, st)
  | k + 1, stdin, st => mainLoop root table host k (readTrigger stdin) (pollCycle root table host st)

/-! ## Notions used to state the properties -/

/-- Digits of an integer literal: the text without its optional sign. -/
def literalBody (raw : String) : List Char :=
  match raw.toList with
  | [] => []
  | c :: t => if c = '+' ∨ c = '-' then t else c :: t

/-- A base-10 integer literal: an optional sign followed by one or more
decimal digits, and nothing else. -/
def isIntLiteral (raw : String) : Bool :=
  !(literalBody raw).isEmpty && (literalBody raw).all strconv.isDigit

/-- Number denoted by a run of decimal digits. -/
def decimalValue (ds : List Char) : Nat :=
  ds.foldl (fun a c => a * 10 + strconv.digitVal c) 0

/-- Integer denoted by an integer literal. -/
def intLiteralValue (raw : String) : Int :=
  if raw.toList.head? = some '-' then -(decimalValue (literalBody raw) : Int)
  else (decimalValue (literalBody raw) : Int)

/-- White space as in Go's `unicode.IsSpace`: tab, line feed, vertical tab,
form feed, carriage return, space, U+0085, U+00A0 and the other characters
with the Unicode property White_Space. -/
def isSpace (c : Char) : Bool :=
  let n := c.toNat
  (decide (9 ≤ n) && decide (n ≤ 13)) || n == 32 || n == 0x85 || n == 0xA0 || n == 0x1680 ||
    (decide (0x2000 ≤ n) && decide (n ≤ 0x200A)) || n == 0x2028 || n == 0x2029 ||
    n == 0x202F || n == 0x205F || n == 0x3000

/-- The text starts or ends with a white space character. -/
def hasOuterSpace (raw : String) : Bool :=
  raw.toList.head?.any isSpace || raw.toList.getLast?.any isSpace

/-- Characters that can occur in a text accepted by `Atoi` or `ParseFloat`:
decimal digits, ASCII letters, sign, dot and underscore. -/
def numChar (c : Char) : Bool :=
  let n := c.toNat
  (decide (48 ≤ n) && decide (n ≤ 57)) || (decide (65 ≤ n) && decide (n ≤ 90)) ||
    (decide (97 ≤ n) && decide (n ≤ 122)) || n == 43 || n == 45 || n == 46 || n == 95

/-- Outcome of one table entry `m` processed from the variables `st`: the
text extracted for it when the entry does not fail (cache hit, or service
found, action found and invocation without error), `none` when it fails. -/
def entryValue {W : Type} (root : upnp.Root W) (st : Vars W) (m : ServiceActions) :
    Option String :=
  if m.Service = st.last_service ∧ m.Action = st.last_method then
    some (fmt.Sprint (st.result.lookup m.Result))
  else
    match root.Services m.Service with
    | none => none
    | some service =>
      match service.Actions m.Action with
      | none => none
      | some action =>
        match (action.Call st.world).1.err with
        | some _ => none
        | none => some (fmt.Sprint ((action.Call st.world).1.result.lookup m.Result))

/-- The entries of `table` that do not fail when the table is processed in
order from the variables `st`, each with the text extracted for it. -/
def succeeded {W : Type} (root : upnp.Root W) :
    Vars W → List ServiceActions → List (ServiceActions × String)
  | _, [] => []
  | st, m :: ms =>
    match entryValue root st m with
    | some v => (m, v) :: succeeded root (loopBody root st m) ms
    | none => succeeded root (loopBody root st m) ms

/-- The entries that do not fail and whose extracted text is not `<nil>`. -/
def keptEntries {W : Type} (root : upnp.Root W) (st : Vars W) (table : List ServiceActions) :
    List (ServiceActions × String) :=
  (succeeded root st table).filter (fun p => decide (p.2 ≠ "<nil>"))

/-- The field `name=value` of the line for a kept entry. -/
def fieldOf (p : ServiceActions × String) : String :=
  (Result.mk p.1.Name p.2).influxString

/-- The mapping one table entry `m` reads its value from when it is processed
from the variables `st`: the cached mapping on a cache hit, the mapping
returned by the invocation when that succeeds, `none` when the entry fails. -/
def entryMapping {W : Type} (root : upnp.Root W) (st : Vars W) (m : ServiceActions) :
    Option upnp.Result :=
  if m.Service = st.last_service ∧ m.Action = st.last_method then some st.result
  else
    match root.Services m.Service with
    | none => none
    | some service =>
      match service.Actions m.Action with
      | none => none
      | some action =>
        match (action.Call st.world).1.err with
        | some _ => none
        | none => some (action.Call st.world).1.result

/-- The invocations a single-slot cache makes for `table` when no entry
fails: one for every entry whose pair differs from the pair before it,
`last` being the pair cached when the pass starts. -/
def expectedCalls : String × String → List ServiceActions → List (String × String)
  | _, [] => []
  | last, m :: ms =>
    if (m.Service, m.Action) = last then expectedCalls last ms
    else (m.Service, m.Action) :: expectedCalls (m.Service, m.Action) ms

/-- A list with every run of equal neighbours reduced to one element. -/
def collapseRuns {α : Type} [DecidableEq α] : List α → List α
  | [] => []
  | [a] => [a]
  | a :: b :: t => if a = b then collapseRuns (b :: t) else a :: collapseRuns (b :: t)

/-- The three forms of a rendered value. -/
inductive WireForm where
  | integer
  | float
  | text
  deriving DecidableEq, Repr

/-- The form `Result.influxString` chooses for a raw value. -/
def rawForm (raw : String) : WireForm :=
  match strconv.Atoi raw with
  | some _ => WireForm.integer
  | none =>
    match strconv.ParseFloat raw with
    | some _ => WireForm.float
    | none => WireForm.text

/-- The rendered value of a raw value: the part of the field after `name=`. -/
def renderValue (raw : String) : String :=
  match rawForm raw with
  | WireForm.integer => raw ++ "i"
  | WireForm.float => raw
  | WireForm.text => "\"" ++ raw ++ "\""

/-- The form read off a rendered value alone: text when it starts with a
double quote, integer when it ends with `i`, float otherwise. -/
def renderedForm (value : String) : WireForm :=
  if value.toList.head? = some '"' then WireForm.text
  else if value.toList.getLast? = some 'i' then WireForm.integer
  else WireForm.float

/-- Characters that `readFloat` can consume: decimal digits, the letters
`a..f`, `x`, `p` in either case, sign, dot and underscore. -/
def scanChar (c : Char) : Bool :=
  strconv.isDigit c || strconv.isHexLetter c || c == 'x' || c == 'X' || c == 'p' || c == 'P' ||
    c == '+' || c == '-' || c == '.' || c == '_'

/-! ## A small collaborator for the examples -/

/-- An action that always succeeds with the given fields and counts the
invocations in the state. -/
def demoAction (fields : upnp.Result) : upnp.Action Nat :=
  ⟨fun w => (⟨fields, none⟩, w + 1)⟩

/-- A collaborator with the single service `svc` and its actions `GetA`
(fields `x` and `y`) and `GetB` (fields `x` and `z`). -/
def demoRoot : upnp.Root Nat :=
  ⟨fun s =>
    if s = "svc" then
      some ⟨fun a =>
        if a = "GetA" then some (demoAction [("x", "1"), ("y", "2.5")])
        else if a = "GetB" then some (demoAction [("x", "up"), ("z", "4")])
        else none⟩
    else none⟩

/-- A table in which the pair `(svc, GetA)` occurs in two consecutive entries
and again after an entry of another pair. -/
def demoTableABA : List ServiceActions :=
  [⟨"svc", "GetA", "x", "a_x"⟩, ⟨"svc", "GetA", "y", "a_y"⟩, ⟨"svc", "GetB", "z", "b_z"⟩,
    ⟨"svc", "GetA", "x", "a_x2"⟩]

/-- A table of one pair only. -/
def demoTableA : List ServiceActions :=
  [⟨"svc", "GetA", "x", "a_x"⟩, ⟨"svc", "GetA", "y", "a_y"⟩]

/-- A table of five entries whose third entry names a service that
`demoRoot` does not have. -/
def demoTable5 : List ServiceActions :=
  [⟨"svc", "GetA", "x", "a_x"⟩, ⟨"svc", "GetA", "y", "a_y"⟩, ⟨"gone", "GetA", "x", "g_x"⟩,
    ⟨"svc", "GetB", "z", "b_z"⟩, ⟨"svc", "GetB", "x", "b_x"⟩]

/-- A collaborator without any service: every lookup fails. -/
def emptyRoot : upnp.Root Unit :=
  ⟨fun _ => none⟩

/-- The mapping of the end-to-end example. -/
def stubMapping : upnp.Result :=
  [("TotalPacketsReceived", "100"), ("TotalPacketsSent", "<nil>")]

/-- A stub collaborator in which every service and every action resolves and
every invocation returns `stubMapping`. -/
def stubRoot : upnp.Root Unit :=
  ⟨fun _ => some ⟨fun _ => some ⟨fun w => (⟨stubMapping, none⟩, w)⟩⟩⟩

/-- Fields returned by the collaborator `scheduleRoot` when an invocation
succeeds. -/
def deviceFields : upnp.Result :=
  [("TotalPacketsReceived", "100"), ("TotalPacketsSent", "90"), ("TotalBytesReceived", "7"),
    ("PhysicalLinkStatus", "Up"), ("ConnectionStatus", "Connected"),
    ("LastConnectionError", "ERROR_NONE"), ("Uptime", "3600")]

/-- A collaborator in which every service and every action resolves, whose
state counts the invocations made, and whose invocation number `w` succeeds
with `deviceFields` when `ok w` and otherwise fails with the nil mapping and
an error, as a remote device does during an outage. -/
def scheduleRoot (ok : Nat → Bool) : upnp.Root Nat :=
  ⟨fun _ => some ⟨fun _ => some
    ⟨fun w => if ok w then (⟨deviceFields, none⟩, w + 1) else (⟨[], some "timeout"⟩, w + 1)⟩⟩⟩

/-! ## The formatter -/

theorem strings.intercalate_go_append (sep acc x : String) (l : List String) :
    String.intercalate.go (acc ++ x) sep l = acc ++ String.intercalate.go x sep l := by
  induction l generalizing x with
  | nil => simp [String.intercalate.go]
  | cons a t ih =>
    simp only [String.intercalate.go]
    rw [String.append_assoc, String.append_assoc, ← String.append_assoc x sep a, ih]

theorem strings.Join_cons_eq_go (sep a : String) (l : List String) :
    strings.Join (a :: l) sep = String.intercalate.go a sep l := by
  induction l generalizing a with
  | nil => simp [strings.Join, String.intercalate.go]
  | cons b t ih =>
    simp only [strings.Join, String.intercalate.go]
    rw [ih b, strings.intercalate_go_append]

theorem strings.Join_eq_intercalate (sep : String) (l : List String) :
    strings.Join l sep = sep.intercalate l := by
  cases l with
  | nil => simp [strings.Join, String.intercalate]
  | cons a t => simp [String.intercalate, strings.Join_cons_eq_go]

theorem influxResultsLoop_eq (rs : List Result) (acc : List String) :
    influxResultsLoop rs acc =
      acc ++ (rs.filter (fun r => decide (r.Value ≠ "<nil>"))).map Result.influxString := by
  induction rs generalizing acc with
  | nil => simp [influxResultsLoop]
  | cons r t ih =>
    by_cases h : r.Value = "<nil>"
    · simp [influxResultsLoop, h, ih]
    · simp [influxResultsLoop, h, ih]

/-- C1: `ServiceResults.influxString(bucket, host)` is the bucket, the host tag
(host verbatim between double quotes), the source tag with the batch name, one
space, and the comma-join of `Result.influxString` over exactly the results
whose value is not `<nil>`, in their original order and without
deduplication; nothing follows the last field. -/
theorem ServiceResults.influxString_spec (sr : ServiceResults) (bucket host : String) :
    sr.influxString bucket host =
      bucket ++ ",host=\"" ++ host ++ "\",source=" ++ sr.Name ++ " " ++
        ",".intercalate
          ((sr.Results.filter (fun r => decide (r.Value ≠ "<nil>"))).map Result.influxString) := by
  simp [ServiceResults.influxString, influxResultsLoop_eq, strings.Join_eq_intercalate]

/-! ## Integer and float parsing -/

theorem strconv.parseDigits_of_all (cs : List Char) (n : Nat)
    (h : cs.all strconv.isDigit = true) :
    strconv.parseDigits cs n = some (cs.foldl (fun a c => a * 10 + strconv.digitVal c) n) := by
  induction cs generalizing n with
  | nil => simp [strconv.parseDigits]
  | cons c t ih =>
    simp only [List.all_cons, Bool.and_eq_true] at h
    simp [strconv.parseDigits, h.1, ih _ h.2]

theorem strconv.ParseUint_of_digits (cs : List Char) (hne : cs ≠ [])
    (h : cs.all strconv.isDigit = true) (hlt : decimalValue cs < 2 ^ 64) :
    strconv.ParseUint cs = some (decimalValue cs) := by
  cases cs with
  | nil => exact absurd rfl hne
  | cons c t =>
    have hp := strconv.parseDigits_of_all (c :: t) 0 h
    unfold decimalValue at hlt ⊢
    simp only [strconv.ParseUint, hp]
    rw [if_pos hlt]

theorem strconv.Atoi_of_literal (raw : String) (hlit : isIntLiteral raw = true)
    (hlo : -(2 ^ (strconv.intSize - 1) : Int) ≤ intLiteralValue raw)
    (hhi : intLiteralValue raw < (2 ^ (strconv.intSize - 1) : Int)) :
    strconv.Atoi raw = some (intLiteralValue raw) := by
  unfold isIntLiteral literalBody at hlit
  unfold intLiteralValue literalBody at hlo hhi ⊢
  unfold strconv.Atoi strconv.ParseInt
  simp only [strconv.intSize] at hlo hhi ⊢
  generalize raw.toList = cs at hlit hlo hhi ⊢
  cases cs with
  | nil => simp at hlit
  | cons c t =>
    simp only [List.head?_cons, Option.some.injEq] at hlo hhi ⊢
    simp only [Bool.and_eq_true, Bool.not_eq_true', List.isEmpty_eq_false] at hlit
    obtain ⟨hne, hall⟩ := hlit
    by_cases hm : c = '-'
    · subst hm
      simp only [or_true, if_true] at hne hall hlo hhi ⊢
      have hlt : decimalValue t < 2 ^ 64 := by omega
      simp [strconv.ParseUint_of_digits t hne hall hlt]
      omega
    · by_cases hp : c = '+'
      · subst hp
        simp only [true_or, if_true] at hne hall hlo hhi ⊢
        have hlt : decimalValue t < 2 ^ 64 := by
          simp at hhi; omega
        simp [strconv.ParseUint_of_digits t hne hall hlt]
        simp at hhi; omega
      · simp only [hm, hp, or_self, if_false] at hne hall hlo hhi ⊢
        have hlt : decimalValue (c :: t) < 2 ^ 64 := by
          omega
        simp [hm, hp, strconv.ParseUint_of_digits (c :: t) hne hall hlt]
        omega

/-- C2, as amended: for every name and every base-10 integer literal whose
value fits the 64-bit type `int`, `Result.influxString` is the name, `=`,
the literal unchanged and the suffix `i`. -/
theorem Result.influxString_int (name raw : String) (hlit : isIntLiteral raw = true)
    (hlo : -(2 ^ (strconv.intSize - 1) : Int) ≤ intLiteralValue raw)
    (hhi : intLiteralValue raw < (2 ^ (strconv.intSize - 1) : Int)) :
    (Result.mk name raw).influxString = name ++ "=" ++ raw ++ "i" := by
  simp [Result.influxString, strconv.Atoi_of_literal raw hlit hlo hhi, String.append_assoc]

theorem Result.influxString_int_witness :
    isIntLiteral "42" = true ∧
      -(2 ^ (strconv.intSize - 1) : Int) ≤ intLiteralValue "42" ∧
      intLiteralValue "42" < (2 ^ (strconv.intSize - 1) : Int) ∧
      (Result.mk "packets_received" "42").influxString = "packets_received" ++ "=" ++ "42" ++ "i" :=
  ⟨by decide, by decide, by decide,
    Result.influxString_int "packets_received" "42" (by decide) (by decide) (by decide)⟩

/-- C2 fails as stated: `9223372036854775808` is an integer literal, one past
the largest `int`, and is rendered in the float form, without the suffix. -/
theorem Result.influxString_int_counterexample :
    isIntLiteral "9223372036854775808" = true ∧
      (Result.mk "packets_received" "9223372036854775808").influxString =
        "packets_received=9223372036854775808" ∧
      (Result.mk "packets_received" "9223372036854775808").influxString ≠
        "packets_received" ++ "=" ++ "9223372036854775808" ++ "i" := by
  decide

/-- C3: for every name and every raw value for which `Atoi` fails and
`ParseFloat` succeeds, `Result.influxString` is the name, `=` and the raw
text unchanged, with no suffix. -/
theorem Result.influxString_float (name raw : String) (hint : strconv.Atoi raw = none)
    (hfloat : (strconv.ParseFloat raw).isSome = true) :
    (Result.mk name raw).influxString = name ++ "=" ++ raw := by
  obtain ⟨v, hv⟩ := Option.isSome_iff_exists.mp hfloat
  simp [Result.influxString, hint, hv]

theorem Result.influxString_float_witness :
    strconv.Atoi "3.14" = none ∧ (strconv.ParseFloat "3.14").isSome = true ∧
      (Result.mk "bytes_send_rate" "3.14").influxString = "bytes_send_rate" ++ "=" ++ "3.14" :=
  ⟨by decide, by decide,
    Result.influxString_float "bytes_send_rate" "3.14" (by decide) (by decide)⟩

/-- C4: for every name and every raw value for which both `Atoi` and
`ParseFloat` fail, `Result.influxString` is the name, `=` and the raw text
between double quotes, embedded quotes unescaped; the empty string gives
`name=""` and `Connected` gives `name="Connected"`. -/
theorem Result.influxString_string (name raw : String) :
    (strconv.Atoi raw = none → strconv.ParseFloat raw = none →
        (Result.mk name raw).influxString = name ++ "=\"" ++ raw ++ "\"") ∧
      (Result.mk name "").influxString = name ++ "=\"\"" ∧
      (Result.mk name "Connected").influxString = name ++ "=\"Connected\"" := by
  have hgen : ∀ r : String, strconv.Atoi r = none → strconv.ParseFloat r = none →
      (Result.mk name r).influxString = name ++ "=\"" ++ r ++ "\"" := by
    intro r hint hfloat
    simp only [Result.influxString, hint, hfloat]
    have hq : ("=\"" : String) = "=" ++ "\"" := by decide
    rw [hq]
    simp only [String.append_assoc]
  refine ⟨hgen raw, ?_, ?_⟩
  · have h := hgen "" (by decide) (by decide)
    rw [h]
    have hq : ("=\"\"" : String) = "=\"" ++ "" ++ "\"" := by decide
    rw [hq]
    simp only [String.append_assoc]
  · have h := hgen "Connected" (by decide) (by decide)
    rw [h]
    have hq : ("=\"Connected\"" : String) = "=\"" ++ "Connected" ++ "\"" := by decide
    rw [hq]
    simp only [String.append_assoc]

theorem Result.influxString_string_witness :
    strconv.Atoi "say \"hi\"" = none ∧ strconv.ParseFloat "say \"hi\"" = none ∧
      (Result.mk "last_connection_error" "say \"hi\"").influxString =
        "last_connection_error=\"say \"hi\"\"" ∧
      (Result.mk "last_connection_error" "").influxString = "last_connection_error=\"\"" ∧
      (Result.mk "last_connection_error" "Connected").influxString =
        "last_connection_error=\"Connected\"" :=
  ⟨by decide, by decide,
    (Result.influxString_string "last_connection_error" "say \"hi\"").1 (by decide) (by decide),
    (Result.influxString_string "last_connection_error" "say \"hi\"").2.1,
    (Result.influxString_string "last_connection_error" "say \"hi\"").2.2⟩

/-! ### The alphabet of accepted numbers -/

theorem numChar_of_isDigit (c : Char) (h : strconv.isDigit c = true) : numChar c = true := by
  simp only [strconv.isDigit, Bool.and_eq_true, decide_eq_true_eq] at h
  simp [numChar, h.1, h.2]

theorem numChar_of_isHexLetter (c : Char) (h : strconv.isHexLetter c = true) :
    numChar c = true := by
  simp only [strconv.isHexLetter, Bool.or_eq_true, Bool.and_eq_true, decide_eq_true_eq] at h
  simp only [numChar, Bool.or_eq_true, Bool.and_eq_true, decide_eq_true_eq, beq_iff_eq]
  omega

theorem isSpace_not_numChar (c : Char) (h : isSpace c = true) : numChar c = false := by
  simp only [isSpace, Bool.or_eq_true, Bool.and_eq_true, decide_eq_true_eq, beq_iff_eq] at h
  cases hn : numChar c with
  | false => rfl
  | true =>
    simp only [numChar, Bool.or_eq_true, Bool.and_eq_true, decide_eq_true_eq, beq_iff_eq] at hn
    omega

theorem strconv.parseDigits_some_all (cs : List Char) (n v : Nat)
    (h : strconv.parseDigits cs n = some v) : ∀ c ∈ cs, strconv.isDigit c = true := by
  induction cs generalizing n with
  | nil => intro c hc; cases hc
  | cons d t ih =>
    intro c hc
    by_cases hd : strconv.isDigit d = true
    · simp only [strconv.parseDigits, hd, if_true] at h
      rcases List.mem_cons.mp hc with rfl | hmem
      · exact hd
      · exact ih _ h c hmem
    · simp [strconv.parseDigits, hd] at h

theorem strconv.ParseUint_some_all (cs : List Char) (v : Nat)
    (h : strconv.ParseUint cs = some v) : ∀ c ∈ cs, strconv.isDigit c = true := by
  cases cs with
  | nil => intro c hc; cases hc
  | cons d t =>
    simp only [strconv.ParseUint] at h
    cases hp : strconv.parseDigits (d :: t) 0 with
    | none => simp [hp] at h
    | some n => exact strconv.parseDigits_some_all (d :: t) 0 n hp

theorem strconv.Atoi_chars (raw : String) (v : Int) (h : strconv.Atoi raw = some v) :
    ∀ c ∈ raw.toList, numChar c = true := by
  unfold strconv.Atoi strconv.ParseInt at h
  generalize raw.toList = cs at h ⊢
  cases cs with
  | nil => simp at h
  | cons d t =>
    simp only at h
    cases hu : strconv.ParseUint (if d = '+' ∨ d = '-' then t else d :: t) with
    | none => simp [hu] at h
    | some un =>
      have hall := strconv.ParseUint_some_all _ un hu
      intro c hc
      by_cases hs : d = '+' ∨ d = '-'
      · rw [if_pos hs] at hall
        rcases List.mem_cons.mp hc with rfl | hmem
        · rcases hs with rfl | rfl <;> decide
        · exact numChar_of_isDigit c (hall c hmem)
      · rw [if_neg hs] at hall
        exact numChar_of_isDigit c (hall c hc)

theorem strconv.readMant_mem (base : Nat) (s : List Char) (m : strconv.Mant) :
    ∀ c ∈ s, numChar c = true ∨ c ∈ (strconv.readMant base s m).2 := by
  induction s generalizing m with
  | nil => intro c hc; cases hc
  | cons d t ih =>
    intro c hc
    have hchar : ∀ m1 : strconv.Mant, numChar d = true →
        (numChar c = true ∨ c ∈ (strconv.readMant base t m1).2) := by
      intro m1 hd
      rcases List.mem_cons.mp hc with rfl | hmem
      · exact Or.inl hd
      · exact ih m1 c hmem
    unfold strconv.readMant
    split
    · next h => exact hchar _ (by subst h; decide)
    · split
      · next h =>
        split
        · exact Or.inr hc
        · exact hchar _ (by subst h; decide)
      · split
        · next hdig =>
          split
          · exact hchar _ (numChar_of_isDigit d hdig)
          · exact hchar _ (numChar_of_isDigit d hdig)
        · split
          · next hhex => exact hchar _ (numChar_of_isHexLetter d hhex.2)
          · exact Or.inr hc

theorem strconv.readExpDigits_mem (s : List Char) (e : Nat) (u : Bool) :
    ∀ c ∈ s, numChar c = true ∨ c ∈ (strconv.readExpDigits s e u).2.2 := by
  induction s generalizing e u with
  | nil => intro c hc; cases hc
  | cons d t ih =>
    intro c hc
    have hchar : ∀ (e1 : Nat) (u1 : Bool), numChar d = true →
        (numChar c = true ∨ c ∈ (strconv.readExpDigits t e1 u1).2.2) := by
      intro e1 u1 hd
      rcases List.mem_cons.mp hc with rfl | hmem
      · exact Or.inl hd
      · exact ih e1 u1 c hmem
    unfold strconv.readExpDigits
    split
    · next h => exact hchar _ _ (by subst h; decide)
    · split
      · next hdig => exact hchar _ _ (numChar_of_isDigit d hdig)
      · exact Or.inr hc

theorem strconv.readExp_mem (hex : Bool) (dp : Int) (u : Bool) (s : List Char)
    (r : Int × Bool × List Char) (h : strconv.readExp hex dp u s = some r) :
    ∀ c ∈ s, numChar c = true ∨ c ∈ r.2.2 := by
  cases s with
  | nil => intro c hc; cases hc
  | cons e t =>
    intro c hc
    unfold strconv.readExp at h
    simp only at h
    split at h
    · next hexp =>
      have he : numChar e = true := by
        rcases hexp with ⟨_, rfl | rfl⟩ | ⟨_, rfl | rfl⟩ <;> decide
      cases t with
      | nil => simp at h
      | cons d t1 =>
        simp only at h
        split at h
        · simp at h
        · next d2 t3 ht2 =>
          split at h
          · simp only [Option.some.injEq] at h
            subst h
            simp only
            rw [ht2]
            have hrest : ∀ x ∈ d2 :: t3,
                numChar x = true ∨ x ∈ (strconv.readExpDigits (d2 :: t3) 0 u).2.2 :=
              strconv.readExpDigits_mem (d2 :: t3) 0 u
            rcases List.mem_cons.mp hc with rfl | hmem
            · exact Or.inl he
            · by_cases hs : d = '+' ∨ d = '-'
              · rw [if_pos hs] at ht2
                rcases List.mem_cons.mp hmem with rfl | hmem1
                · left
                  rcases hs with rfl | rfl <;> decide
                · exact hrest c (ht2 ▸ hmem1)
              · rw [if_neg hs] at ht2
                exact hrest c (ht2 ▸ hmem)
          · simp at h
    · split at h
      · simp at h
      · simp only [Option.some.injEq] at h
        subst h
        exact Or.inr hc

theorem strconv.hasHexPrefix_mem (s : List Char) (h : strconv.hasHexPrefix s = true) :
    ∀ c ∈ s, numChar c = true ∨ c ∈ s.drop 2 := by
  unfold strconv.hasHexPrefix at h
  split at h
  · next c0 x y t =>
    simp only [Bool.and_eq_true, Bool.or_eq_true, beq_iff_eq] at h
    intro c hc
    rcases List.mem_cons.mp hc with rfl | hmem
    · left
      rw [h.1]
      decide
    · rcases List.mem_cons.mp hmem with rfl | hmem1
      · left
        rcases h.2 with hx | hx <;> rw [hx] <;> decide
      · right
        simpa using hmem1
  · simp at h

theorem strconv.readNumber_mem (s : List Char) (neg : Bool) (s1 : List Char) (r : strconv.Read)
    (h : strconv.readNumber s neg s1 = some r) :
    ∀ c ∈ s1, numChar c = true ∨ c ∈ r.rest := by
  unfold strconv.readNumber at h
  simp only at h
  have hP : ∀ c ∈ s1, numChar c = true ∨
      c ∈ (if strconv.hasHexPrefix s1 = true then s1.drop 2 else s1) := by
    intro c hc
    by_cases hh : strconv.hasHexPrefix s1 = true
    · rw [if_pos hh]
      exact strconv.hasHexPrefix_mem _ hh c hc
    · rw [if_neg hh]
      exact Or.inr hc
  have hM := strconv.readMant_mem (if strconv.hasHexPrefix s1 = true then 16 else 10)
    (if strconv.hasHexPrefix s1 = true then s1.drop 2 else s1) ⟨0, 0, 0, false, false, false⟩
  generalize strconv.readMant (if strconv.hasHexPrefix s1 = true then 16 else 10)
    (if strconv.hasHexPrefix s1 = true then s1.drop 2 else s1)
    ⟨0, 0, 0, false, false, false⟩ = mr at h hM
  split at h
  · simp at h
  · split at h
    · simp at h
    · next dp u rest hexp =>
      have hE := strconv.readExp_mem _ _ _ _ _ hexp
      simp only at hE
      split at h
      · simp at h
      · simp only [Option.some.injEq] at h
        subst h
        simp only
        intro c hc
        rcases hP c hc with h1 | h1
        · exact Or.inl h1
        rcases hM c h1 with h2 | h2
        · exact Or.inl h2
        · exact hE c h2

theorem strconv.readFloat_mem (s : List Char) (r : strconv.Read)
    (h : strconv.readFloat s = some r) : ∀ c ∈ s, numChar c = true ∨ c ∈ r.rest := by
  cases s with
  | nil => intro c hc; cases hc
  | cons d t =>
    unfold strconv.readFloat at h
    simp only at h
    have hN := strconv.readNumber_mem _ _ _ _ h
    intro c hc
    by_cases hs : d = '+' ∨ d = '-'
    · rw [if_pos hs] at hN
      rcases List.mem_cons.mp hc with rfl | hmem
      · left
        rcases hs with rfl | rfl <;> decide
      · exact hN c hmem
    · rw [if_neg hs] at hN
      exact hN c hc

theorem strconv.numChar_of_lowerAZ (c : Char) (h : numChar (strconv.lowerAZ c) = true) :
    numChar c = true := by
  unfold strconv.lowerAZ at h
  split at h
  · next hr =>
    simp only [numChar, Bool.or_eq_true, Bool.and_eq_true, decide_eq_true_eq, beq_iff_eq]
    omega
  · exact h

theorem strconv.commonPrefixLen_le (s p : List Char) :
    strconv.commonPrefixLenIgnoreCase s p ≤ s.length := by
  induction s generalizing p with
  | nil => simp [strconv.commonPrefixLenIgnoreCase]
  | cons c t ih =>
    cases p with
    | nil => simp [strconv.commonPrefixLenIgnoreCase]
    | cons q p1 =>
      simp only [strconv.commonPrefixLenIgnoreCase, List.length_cons]
      split
      · exact Nat.succ_le_succ (ih p1)
      · exact Nat.zero_le _

theorem strconv.commonPrefixLen_full (s p : List Char) (hp : ∀ q ∈ p, numChar q = true)
    (h : s.length ≤ strconv.commonPrefixLenIgnoreCase s p) : ∀ c ∈ s, numChar c = true := by
  induction s generalizing p with
  | nil => intro c hc; cases hc
  | cons d t ih =>
    cases p with
    | nil => simp [strconv.commonPrefixLenIgnoreCase] at h
    | cons q p1 =>
      simp only [strconv.commonPrefixLenIgnoreCase, List.length_cons] at h
      split at h
      · next heq =>
        intro c hc
        rcases List.mem_cons.mp hc with rfl | hmem
        · apply strconv.numChar_of_lowerAZ
          rw [heq]
          exact hp q (List.mem_cons_self _ _)
        · exact ih p1 (fun x hx => hp x (List.mem_cons_of_mem _ hx)) (by omega) c hmem
      · omega

theorem strconv.specialInf_chars (neg : Bool) (nsign : Nat) (s : List Char)
    (v : strconv.FloatVal) (n : Nat) (h : strconv.specialInf neg nsign s = some (v, n))
    (hn : n = nsign + s.length) : ∀ c ∈ s, numChar c = true := by
  have hle := strconv.commonPrefixLen_le s "infinity".toList
  apply strconv.commonPrefixLen_full s "infinity".toList (by decide)
  unfold strconv.specialInf at h
  simp only at h
  generalize strconv.commonPrefixLenIgnoreCase s "infinity".toList = k at h hle ⊢
  by_cases hk : 3 < k ∧ k < 8
  · rw [if_pos hk] at h
    simp only [true_or, if_true, Option.some.injEq, Prod.mk.injEq] at h
    omega
  · rw [if_neg hk] at h
    by_cases hk2 : k = 3 ∨ k = 8
    · rw [if_pos hk2] at h
      simp only [Option.some.injEq, Prod.mk.injEq] at h
      omega
    · rw [if_neg hk2] at h
      simp at h

theorem strconv.special_chars (s : List Char) (v : strconv.FloatVal) (n : Nat)
    (h : strconv.special s = some (v, n)) (hn : n = s.length) :
    ∀ c ∈ s, numChar c = true := by
  cases s with
  | nil => intro c hc; cases hc
  | cons d t =>
    unfold strconv.special at h
    simp only at h
    split at h
    · next hs =>
      have ht := strconv.specialInf_chars _ 1 t v n h (by simp at hn; omega)
      intro c hc
      rcases List.mem_cons.mp hc with rfl | hmem
      · rcases hs with rfl | rfl <;> decide
      · exact ht c hmem
    · split at h
      · exact strconv.specialInf_chars _ 0 (d :: t) v n h (by omega)
      · split at h
        · split at h
          · next hk =>
            simp only [Option.some.injEq, Prod.mk.injEq] at h
            apply strconv.commonPrefixLen_full (d :: t) "nan".toList (by decide)
            omega
          · simp at h
        · simp at h

theorem strconv.ParseFloat_chars (raw : String) (v : strconv.FloatVal)
    (h : strconv.ParseFloat raw = some v) : ∀ c ∈ raw.toList, numChar c = true := by
  unfold strconv.ParseFloat at h
  simp only at h
  generalize raw.toList = cs at h ⊢
  cases hsp : strconv.special cs with
  | some wn =>
    obtain ⟨w, n⟩ := wn
    rw [hsp] at h
    simp only at h
    by_cases hn : n = cs.length
    · exact strconv.special_chars cs w n hsp hn
    · rw [if_neg hn] at h
      simp at h
  | none =>
    rw [hsp] at h
    simp only at h
    cases hr : strconv.readFloat cs with
    | none =>
      rw [hr] at h
      simp at h
    | some r =>
      rw [hr] at h
      simp only at h
      by_cases hrest : r.rest = []
      · intro c hc
        rcases strconv.readFloat_mem cs r hr c hc with h1 | h1
        · exact h1
        · rw [hrest] at h1
          cases h1
      · by_cases hov : strconv.overflows (if r.hex = true then 2 else 10) r.mantissa r.exp = true
        · rw [if_pos hov] at h
          simp at h
        · rw [if_neg hov] at h
          simp [hrest] at h

theorem hasOuterSpace_mem (raw : String) (h : hasOuterSpace raw = true) :
    ∃ c ∈ raw.toList, isSpace c = true := by
  unfold hasOuterSpace at h
  generalize raw.toList = cs at h ⊢
  simp only [Bool.or_eq_true] at h
  rcases h with h | h
  · cases hh : cs.head? with
    | none => simp [hh] at h
    | some c =>
      rw [hh] at h
      exact ⟨c, List.mem_of_mem_head? hh, by simpa using h⟩
  · cases hl : cs.getLast? with
    | none => simp [hl] at h
    | some c =>
      rw [hl] at h
      exact ⟨c, List.mem_of_getLast?_eq_some hl, by simpa using h⟩

/-- C5: every raw value that starts or ends with a white space character is
rejected by `Atoi` and by `ParseFloat`, neither of which trims, and so is
rendered in the quoted string form `name="raw"`. -/
theorem Result.influxString_outer_space (name raw : String) (h : hasOuterSpace raw = true) :
    strconv.Atoi raw = none ∧ strconv.ParseFloat raw = none ∧
      (Result.mk name raw).influxString = name ++ "=\"" ++ raw ++ "\"" := by
  obtain ⟨c, hc, hsp⟩ := hasOuterSpace_mem raw h
  have hnot := isSpace_not_numChar c hsp
  have hint : strconv.Atoi raw = none := by
    cases ha : strconv.Atoi raw with
    | none => rfl
    | some v =>
      have := strconv.Atoi_chars raw v ha c hc
      rw [hnot] at this
      cases this
  have hfloat : strconv.ParseFloat raw = none := by
    cases hf : strconv.ParseFloat raw with
    | none => rfl
    | some v =>
      have := strconv.ParseFloat_chars raw v hf c hc
      rw [hnot] at this
      cases this
  refine ⟨hint, hfloat, ?_⟩
  simp only [Result.influxString, hint, hfloat]
  have hq : ("=\"" : String) = "=" ++ "\"" := by decide
  rw [hq]
  simp only [String.append_assoc]

theorem Result.influxString_outer_space_witness :
    (hasOuterSpace " 42" = true ∧ (Result.mk "uptime" " 42").influxString = "uptime=\" 42\"") ∧
      (hasOuterSpace "42 " = true ∧ (Result.mk "uptime" "42 ").influxString = "uptime=\"42 \"") ∧
      (hasOuterSpace "3.14\n" = true ∧
        (Result.mk "uptime" "3.14\n").influxString = "uptime=\"3.14\n\"") :=
  ⟨⟨by decide, (Result.influxString_outer_space "uptime" " 42" (by decide)).2.2⟩,
    ⟨by decide, (Result.influxString_outer_space "uptime" "42 " (by decide)).2.2⟩,
    ⟨by decide, (Result.influxString_outer_space "uptime" "3.14\n" (by decide)).2.2⟩⟩

/-! ## The poll loop -/

theorem loopBody_sr {W : Type} (root : upnp.Root W) (st : Vars W) (m : ServiceActions) :
    (loopBody root st m).sr.Name = st.sr.Name ∧
      (loopBody root st m).sr.Results = st.sr.Results ++
        (match entryValue root st m with
          | some v => [Result.mk m.Name v]
          | none => []) := by
  unfold loopBody entryValue
  by_cases hhit : m.Service = st.last_service ∧ m.Action = st.last_method
  · have hmiss : ¬(m.Service ≠ st.last_service ∨ m.Action ≠ st.last_method) := by
      rintro (h | h)
      · exact h hhit.1
      · exact h hhit.2
    simp [hhit, hmiss, appendResult]
  · have hmiss : m.Service ≠ st.last_service ∨ m.Action ≠ st.last_method := by
      by_cases h1 : m.Service = st.last_service
      · right
        intro h2
        exact hhit ⟨h1, h2⟩
      · exact Or.inl h1
    rw [if_pos hmiss, if_neg hhit]
    cases hs : root.Services m.Service with
    | none => simp
    | some service =>
      cases ha : service.Actions m.Action with
      | none => simp [ha]
      | some action =>
        cases he : (action.Call st.world).1.err with
        | some e => simp [ha, he]
        | none => simp [ha, he, appendResult]

theorem succeeded_cons {W : Type} (root : upnp.Root W) (st : Vars W) (m : ServiceActions)
    (ms : List ServiceActions) :
    succeeded root st (m :: ms) =
      (match entryValue root st m with
        | some v => (m, v) :: succeeded root (loopBody root st m) ms
        | none => succeeded root (loopBody root st m) ms) := by
  rw [succeeded]

theorem foldl_loopBody_sr {W : Type} (root : upnp.Root W) (table : List ServiceActions)
    (st : Vars W) :
    (table.foldl (loopBody root) st).sr.Name = st.sr.Name ∧
      (table.foldl (loopBody root) st).sr.Results = st.sr.Results ++
        (succeeded root st table).map (fun p => Result.mk p.1.Name p.2) := by
  induction table generalizing st with
  | nil => simp [succeeded]
  | cons m ms ih =>
    obtain ⟨hn, hr⟩ := loopBody_sr root st m
    obtain ⟨ihn, ihr⟩ := ih (loopBody root st m)
    simp only [List.foldl_cons]
    refine ⟨ihn.trans hn, ?_⟩
    rw [ihr, hr, succeeded_cons]
    cases entryValue root st m with
    | none => simp
    | some v => simp

theorem succeeded_sublist {W : Type} (root : upnp.Root W) (table : List ServiceActions)
    (st : Vars W) : ((succeeded root st table).map Prod.fst).Sublist table := by
  induction table generalizing st with
  | nil => simp [succeeded]
  | cons m ms ih =>
    rw [succeeded_cons]
    cases entryValue root st m with
    | none => exact (ih _).cons m
    | some v => exact (ih _).cons₂ m

theorem cycleLine_eq {W : Type} (root : upnp.Root W) (table : List ServiceActions)
    (host : String) (st : Vars W) :
    cycleLine root table host st =
      "fritzbox" ++ ",host=\"" ++ host ++ "\",source=" ++ "wan" ++ " " ++
        ",".intercalate ((keptEntries root { st with sr := ⟨"wan", []⟩ } table).map fieldOf) := by
  unfold cycleLine keptEntries
  simp only [ServiceResults.influxString, influxResultsLoop_eq, strings.Join_eq_intercalate]
  obtain ⟨hn, hr⟩ := foldl_loopBody_sr root table { st with sr := ⟨"wan", []⟩ }
  rw [hn, hr]
  simp only [List.nil_append, List.filter_map, List.map_map]
  rfl

/-- C6: for every table, cache state and collaborator, the line of one poll
cycle consists of the fixed tags followed by the comma-joined fields of
exactly the entries that did not fail and whose extracted text is not
`<nil>`, one field per such entry, named by the entry and in table order. -/
theorem cycleLine_fields {W : Type} (root : upnp.Root W) (table : List ServiceActions)
    (host : String) (st : Vars W) :
    cycleLine root table host st =
        "fritzbox" ++ ",host=\"" ++ host ++ "\",source=" ++ "wan" ++ " " ++
          ",".intercalate ((keptEntries root { st with sr := ⟨"wan", []⟩ } table).map fieldOf) ∧
      ((keptEntries root { st with sr := ⟨"wan", []⟩ } table).map Prod.fst).Sublist table ∧
      (∀ p ∈ keptEntries root { st with sr := ⟨"wan", []⟩ } table,
        p.2 ≠ "<nil>" ∧ ∃ rest : String, fieldOf p = p.1.Name ++ "=" ++ rest) := by
  refine ⟨cycleLine_eq root table host st, ?_, ?_⟩
  · unfold keptEntries
    exact ((List.filter_sublist _).map Prod.fst).trans (succeeded_sublist root table _)
  · intro p hp
    unfold keptEntries at hp
    have h2 := (List.mem_filter.mp hp).2
    refine ⟨by simpa using h2, ?_⟩
    unfold fieldOf Result.influxString
    exact ⟨_, rfl⟩

/-! ### The call cache -/

theorem loopBody_hit {W : Type} (root : upnp.Root W) (st : Vars W) (m : ServiceActions)
    (hs : m.Service = st.last_service) (ha : m.Action = st.last_method) :
    loopBody root st m = appendResult st m := by
  unfold loopBody
  rw [if_neg]
  rintro (h | h)
  · exact h hs
  · exact h ha

theorem loopBody_call {W : Type} (root : upnp.Root W) (st : Vars W) (m : ServiceActions)
    (service : upnp.Service W) (action : upnp.Action W)
    (hmiss : m.Service ≠ st.last_service ∨ m.Action ≠ st.last_method)
    (hs : root.Services m.Service = some service) (ha : service.Actions m.Action = some action)
    (hok : (action.Call st.world).1.err = none) :
    loopBody root st m =
      appendResult
        { st with result := (action.Call st.world).1.result, world := (action.Call st.world).2,
                  calls := st.calls ++ [(m.Service, m.Action)],
                  last_service := m.Service, last_method := m.Action } m := by
  unfold loopBody
  rw [if_pos hmiss]
  simp only [hs, ha, hok]

/-- C7 fails as stated: in the table `demoTableABA` the first two entries share
the pair `(svc, GetA)`, every entry resolves and every invocation succeeds,
and yet the pair is invoked twice in one cycle, because it recurs after the
pair `(svc, GetB)` has taken the single cache slot. -/
theorem call_once_counterexample :
    (demoTableABA.map (fun m => (m.Service, m.Action))).take 2 =
        [("svc", "GetA"), ("svc", "GetA")] ∧
      (succeeded demoRoot (initVars 0) demoTableABA).map Prod.fst = demoTableABA ∧
      (pollCycle demoRoot demoTableABA "h" (initVars 0)).calls =
        [("svc", "GetA"), ("svc", "GetB"), ("svc", "GetA")] ∧
      (pollCycle demoRoot demoTableABA "h" (initVars 0)).calls.count ("svc", "GetA") ≠ 1 := by
  decide

/-- C7, as amended: when two consecutive entries `m1`, `m2` share one
(service, action) pair and processing `m1` invokes the action successfully,
processing `m2` invokes nothing: over the two entries the action is invoked
exactly once, and both entries take their values from the mapping that this
one invocation returned. -/
theorem loopBody_pair_once {W : Type} (root : upnp.Root W) (st : Vars W)
    (m1 m2 : ServiceActions) (service : upnp.Service W) (action : upnp.Action W)
    (hpair : m2.Service = m1.Service ∧ m2.Action = m1.Action)
    (hmiss : m1.Service ≠ st.last_service ∨ m1.Action ≠ st.last_method)
    (hs : root.Services m1.Service = some service)
    (ha : service.Actions m1.Action = some action)
    (hok : (action.Call st.world).1.err = none) :
    (loopBody root (loopBody root st m1) m2).calls = st.calls ++ [(m1.Service, m1.Action)] ∧
      (loopBody root (loopBody root st m1) m2).world = (action.Call st.world).2 ∧
      (loopBody root (loopBody root st m1) m2).result = (action.Call st.world).1.result ∧
      (loopBody root (loopBody root st m1) m2).sr.Results = st.sr.Results ++
        [Result.mk m1.Name (fmt.Sprint ((action.Call st.world).1.result.lookup m1.Result)),
          Result.mk m2.Name (fmt.Sprint ((action.Call st.world).1.result.lookup m2.Result))] := by
  rw [loopBody_call root st m1 service action hmiss hs ha hok]
  rw [loopBody_hit root _ m2 (by simp [appendResult, hpair.1]) (by simp [appendResult, hpair.2])]
  simp [appendResult]

theorem loopBody_pair_once_witness :
    (loopBody demoRoot (loopBody demoRoot (initVars 0) ⟨"svc", "GetA", "x", "a_x"⟩)
        ⟨"svc", "GetA", "y", "a_y"⟩).calls = [] ++ [("svc", "GetA")] ∧
      (loopBody demoRoot (loopBody demoRoot (initVars 0) ⟨"svc", "GetA", "x", "a_x"⟩)
        ⟨"svc", "GetA", "y", "a_y"⟩).world = 1 ∧
      (loopBody demoRoot (loopBody demoRoot (initVars 0) ⟨"svc", "GetA", "x", "a_x"⟩)
        ⟨"svc", "GetA", "y", "a_y"⟩).result = [("x", "1"), ("y", "2.5")] ∧
      (loopBody demoRoot (loopBody demoRoot (initVars 0) ⟨"svc", "GetA", "x", "a_x"⟩)
        ⟨"svc", "GetA", "y", "a_y"⟩).sr.Results = [] ++ [⟨"a_x", "1"⟩, ⟨"a_y", "2.5"⟩] :=
  loopBody_pair_once demoRoot (initVars 0) ⟨"svc", "GetA", "x", "a_x"⟩ ⟨"svc", "GetA", "y", "a_y"⟩
    ⟨fun a =>
        if a = "GetA" then some (demoAction [("x", "1"), ("y", "2.5")])
        else if a = "GetB" then some (demoAction [("x", "up"), ("z", "4")])
        else none⟩
    (demoAction [("x", "1"), ("y", "2.5")]) ⟨rfl, rfl⟩ (by decide) rfl rfl rfl

theorem loopBody_out {W : Type} (root : upnp.Root W) (st : Vars W) (m : ServiceActions) :
    (loopBody root st m).out = st.out := by
  unfold loopBody
  split
  · split
    · rfl
    · split
      · rfl
      · simp only
        split
        · rfl
        · rfl
  · rfl

theorem foldl_loopBody_out {W : Type} (root : upnp.Root W) (table : List ServiceActions)
    (st : Vars W) : (table.foldl (loopBody root) st).out = st.out := by
  induction table generalizing st with
  | nil => rfl
  | cons m ms ih => rw [List.foldl_cons, ih, loopBody_out]

theorem pollCycle_out {W : Type} (root : upnp.Root W) (table : List ServiceActions)
    (host : String) (st : Vars W) :
    (pollCycle root table host st).out = st.out ++ [cycleLine root table host st ++ "\n"] := by
  unfold pollCycle cycleLine
  simp only [foldl_loopBody_out]

theorem entryValue_service_missing {W : Type} (root : upnp.Root W) (st : Vars W)
    (m : ServiceActions) (hmiss : m.Service ≠ st.last_service ∨ m.Action ≠ st.last_method)
    (hs : root.Services m.Service = none) : entryValue root st m = none := by
  unfold entryValue
  rw [if_neg]
  · simp only [hs]
  · rintro ⟨h1, h2⟩
    rcases hmiss with h | h
    · exact h h1
    · exact h h2

/-- C8: in a table of five entries, when resolving entry 3 fails because its
service is not found while entries 1, 2, 4 and 5 each yield a text other
than `<nil>`, the line of the cycle has exactly the fields of entries 1, 2,
4 and 5 in that order, and the cycle ends by writing that line. -/
theorem cycleLine_skips_missing_service {W : Type} (root : upnp.Root W) (host : String)
    (st : Vars W) (m1 m2 m3 m4 m5 : ServiceActions) (v1 v2 v4 v5 : String)
    (h1 : entryValue root { st with sr := ⟨"wan", []⟩ } m1 = some v1)
    (h2 : entryValue root (loopBody root { st with sr := ⟨"wan", []⟩ } m1) m2 = some v2)
    (hmiss : m3.Service ≠
          (loopBody root (loopBody root { st with sr := ⟨"wan", []⟩ } m1) m2).last_service ∨
        m3.Action ≠
          (loopBody root (loopBody root { st with sr := ⟨"wan", []⟩ } m1) m2).last_method)
    (h3 : root.Services m3.Service = none)
    (h4 : entryValue root
        (loopBody root (loopBody root (loopBody root { st with sr := ⟨"wan", []⟩ } m1) m2) m3)
        m4 = some v4)
    (h5 : entryValue root
        (loopBody root
          (loopBody root (loopBody root (loopBody root { st with sr := ⟨"wan", []⟩ } m1) m2) m3)
          m4)
        m5 = some v5)
    (n1 : v1 ≠ "<nil>") (n2 : v2 ≠ "<nil>") (n4 : v4 ≠ "<nil>") (n5 : v5 ≠ "<nil>") :
    cycleLine root [m1, m2, m3, m4, m5] host st =
        "fritzbox" ++ ",host=\"" ++ host ++ "\",source=" ++ "wan" ++ " " ++
          ((Result.mk m1.Name v1).influxString ++ "," ++ (Result.mk m2.Name v2).influxString ++
            "," ++ (Result.mk m4.Name v4).influxString ++ "," ++
            (Result.mk m5.Name v5).influxString) ∧
      (pollCycle root [m1, m2, m3, m4, m5] host st).out =
        st.out ++ [cycleLine root [m1, m2, m3, m4, m5] host st ++ "\n"] := by
  refine ⟨?_, pollCycle_out root _ host st⟩
  have h3n := entryValue_service_missing root _ m3 hmiss h3
  rw [cycleLine_eq]
  unfold keptEntries
  rw [succeeded_cons, h1]
  simp only
  rw [succeeded_cons, h2]
  simp only
  rw [succeeded_cons, h3n]
  simp only
  rw [succeeded_cons, h4]
  simp only
  rw [succeeded_cons, h5]
  simp [succeeded, n1, n2, n4, n5, fieldOf, String.intercalate, String.intercalate.go]

theorem cycleLine_skips_missing_service_witness :
    cycleLine demoRoot demoTable5 "192.168.178.1" (initVars 0) =
        "fritzbox,host=\"192.168.178.1\",source=wan a_x=1i,a_y=2.5,b_z=4i,b_x=\"up\"" ∧
      (pollCycle demoRoot demoTable5 "192.168.178.1" (initVars 0)).out =
        [] ++ [cycleLine demoRoot demoTable5 "192.168.178.1" (initVars 0) ++ "\n"] :=
  cycleLine_skips_missing_service demoRoot "192.168.178.1" (initVars 0)
    ⟨"svc", "GetA", "x", "a_x"⟩ ⟨"svc", "GetA", "y", "a_y"⟩ ⟨"gone", "GetA", "x", "g_x"⟩
    ⟨"svc", "GetB", "z", "b_z"⟩ ⟨"svc", "GetB", "x", "b_x"⟩ "1" "2.5" "4" "up"
    (by decide) (by decide) (by decide) rfl (by decide) (by decide)
    (by decide) (by decide) (by decide) (by decide)

/-- C9: when the lookup of an entry is attempted (the entry is not the cached
pair) and its service or its action is not found, the body of the loop leaves
`last_service`, `last_method` and the cached `result` as they were, appends
nothing to the batch and invokes nothing. -/
theorem loopBody_unresolved {W : Type} (root : upnp.Root W) (st : Vars W) (m : ServiceActions)
    (hmiss : m.Service ≠ st.last_service ∨ m.Action ≠ st.last_method)
    (hres : root.Services m.Service = none ∨
      ∃ service, root.Services m.Service = some service ∧ service.Actions m.Action = none) :
    (loopBody root st m).last_service = st.last_service ∧
      (loopBody root st m).last_method = st.last_method ∧
      (loopBody root st m).result = st.result ∧
      (loopBody root st m).sr = st.sr ∧
      (loopBody root st m).calls = st.calls ∧
      (loopBody root st m).world = st.world ∧
      (loopBody root st m).out = st.out := by
  unfold loopBody
  rw [if_pos hmiss]
  rcases hres with hs | ⟨service, hs, ha⟩
  · simp [hs]
  · simp [hs, ha]

theorem loopBody_unresolved_witness :
    ((loopBody demoRoot (pollCycle demoRoot demoTableA "h" (initVars 0))
          ⟨"gone", "GetA", "x", "g_x"⟩).last_service = "svc" ∧
        (loopBody demoRoot (pollCycle demoRoot demoTableA "h" (initVars 0))
          ⟨"gone", "GetA", "x", "g_x"⟩).result = [("x", "1"), ("y", "2.5")] ∧
        (loopBody demoRoot (pollCycle demoRoot demoTableA "h" (initVars 0))
          ⟨"gone", "GetA", "x", "g_x"⟩).calls = [("svc", "GetA")]) ∧
      ((loopBody demoRoot (pollCycle demoRoot demoTableA "h" (initVars 0))
          ⟨"svc", "GetC", "x", "c_x"⟩).last_method = "GetA" ∧
        (loopBody demoRoot (pollCycle demoRoot demoTableA "h" (initVars 0))
          ⟨"svc", "GetC", "x", "c_x"⟩).sr = ⟨"wan", [⟨"a_x", "1"⟩, ⟨"a_y", "2.5"⟩]⟩) :=
  ⟨⟨(loopBody_unresolved demoRoot (pollCycle demoRoot demoTableA "h" (initVars 0))
        ⟨"gone", "GetA", "x", "g_x"⟩ (by decide) (Or.inl rfl)).1,
      (loopBody_unresolved demoRoot (pollCycle demoRoot demoTableA "h" (initVars 0))
        ⟨"gone", "GetA", "x", "g_x"⟩ (by decide) (Or.inl rfl)).2.2.1,
      (loopBody_unresolved demoRoot (pollCycle demoRoot demoTableA "h" (initVars 0))
        ⟨"gone", "GetA", "x", "g_x"⟩ (by decide) (Or.inl rfl)).2.2.2.2.1⟩,
    ⟨(loopBody_unresolved demoRoot (pollCycle demoRoot demoTableA "h" (initVars 0))
        ⟨"svc", "GetC", "x", "c_x"⟩ (by decide) (Or.inr ⟨_, rfl, rfl⟩)).2.1,
      (loopBody_unresolved demoRoot (pollCycle demoRoot demoTableA "h" (initVars 0))
        ⟨"svc", "GetC", "x", "c_x"⟩ (by decide) (Or.inr ⟨_, rfl, rfl⟩)).2.2.2.1⟩⟩

theorem foldl_loopBody_all_hit {W : Type} (root : upnp.Root W) (table : List ServiceActions)
    (st : Vars W)
    (h : ∀ m ∈ table, m.Service = st.last_service ∧ m.Action = st.last_method) :
    table.foldl (loopBody root) st =
      { st with sr := ⟨st.sr.Name, st.sr.Results ++
          (table.map (fun m => Result.mk m.Name (fmt.Sprint (st.result.lookup m.Result))))⟩ } := by
  induction table generalizing st with
  | nil => simp
  | cons m ms ih =>
    have hm := h m (List.mem_cons_self _ _)
    rw [List.foldl_cons, loopBody_hit root st m hm.1 hm.2]
    rw [ih (appendResult st m) (fun x hx => h x (List.mem_cons_of_mem _ hx))]
    simp [appendResult]

theorem pollCycle_all_hit {W : Type} (root : upnp.Root W) (table : List ServiceActions)
    (host : String) (st : Vars W)
    (h : ∀ m ∈ table, m.Service = st.last_service ∧ m.Action = st.last_method) :
    (pollCycle root table host st).calls = st.calls ∧
      (pollCycle root table host st).world = st.world ∧
      (pollCycle root table host st).last_service = st.last_service ∧
      (pollCycle root table host st).last_method = st.last_method ∧
      (pollCycle root table host st).result = st.result := by
  unfold pollCycle
  simp only
  rw [foldl_loopBody_all_hit root table { st with sr := ⟨"wan", []⟩ } h]
  exact ⟨rfl, rfl, rfl, rfl, rfl⟩

theorem pollCycles_all_hit {W : Type} (root : upnp.Root W) (table : List ServiceActions)
    (host : String) (n : Nat) (st : Vars W)
    (h : ∀ m ∈ table, m.Service = st.last_service ∧ m.Action = st.last_method) :
    (pollCycles root table host n st).calls = st.calls ∧
      (pollCycles root table host n st).world = st.world ∧
      (pollCycles root table host n st).last_service = st.last_service ∧
      (pollCycles root table host n st).last_method = st.last_method ∧
      (pollCycles root table host n st).result = st.result := by
  induction n generalizing st with
  | zero => exact ⟨rfl, rfl, rfl, rfl, rfl⟩
  | succ k ih =>
    obtain ⟨hc, hw, hs, hm, hr⟩ := pollCycle_all_hit root table host st h
    have h1 : ∀ m ∈ table, m.Service = (pollCycle root table host st).last_service ∧
        m.Action = (pollCycle root table host st).last_method := by
      intro m hmem
      rw [hs, hm]
      exact h m hmem
    obtain ⟨ic, iw, is, im, ir⟩ := ih (pollCycle root table host st) h1
    unfold pollCycles
    exact ⟨ic.trans hc, iw.trans hw, is.trans hs, im.trans hm, ir.trans hr⟩

theorem pollCycle_first_call {W : Type} (root : upnp.Root W) (host : String) (st : Vars W)
    (m : ServiceActions) (ms : List ServiceActions)
    (service : upnp.Service W) (action : upnp.Action W)
    (hall : ∀ x ∈ ms, x.Service = m.Service ∧ x.Action = m.Action)
    (hmiss : m.Service ≠ st.last_service ∨ m.Action ≠ st.last_method)
    (hs : root.Services m.Service = some service) (ha : service.Actions m.Action = some action)
    (hok : (action.Call st.world).1.err = none) :
    (pollCycle root (m :: ms) host st).calls = st.calls ++ [(m.Service, m.Action)] ∧
      (pollCycle root (m :: ms) host st).last_service = m.Service ∧
      (pollCycle root (m :: ms) host st).last_method = m.Action := by
  unfold pollCycle
  simp only [List.foldl_cons]
  rw [loopBody_call root { st with sr := ⟨"wan", []⟩ } m service action hmiss hs ha hok]
  rw [foldl_loopBody_all_hit root ms _ (by simpa [appendResult] using hall)]
  simp [appendResult]

/-- C10: the cache slot is not reset between cycles.  With `st` the variables
as the previous cycle left them: (a) when the first entry `m` of the next
cycle has the cached pair, it is processed without any invocation and its
value is read from the mapping `st.result` of the previous cycle; (b) when
every entry of the table has the cached pair, no number of further cycles
invokes the collaborator or changes the cache slot; (c) so for a table of one
pair whose first invocation succeeds, any number of cycles makes that one
invocation only. -/
theorem cache_persists {W : Type} (root : upnp.Root W) (host : String) (st : Vars W)
    (m : ServiceActions) (ms : List ServiceActions) (n : Nat) :
    (m.Service = st.last_service → m.Action = st.last_method →
        (loopBody root { st with sr := ⟨"wan", []⟩ } m).calls = st.calls ∧
        (loopBody root { st with sr := ⟨"wan", []⟩ } m).world = st.world ∧
        (loopBody root { st with sr := ⟨"wan", []⟩ } m).result = st.result ∧
        (loopBody root { st with sr := ⟨"wan", []⟩ } m).sr.Results =
          [Result.mk m.Name (fmt.Sprint (st.result.lookup m.Result))]) ∧
      ((∀ x ∈ m :: ms, x.Service = st.last_service ∧ x.Action = st.last_method) →
        (pollCycles root (m :: ms) host n st).calls = st.calls ∧
        (pollCycles root (m :: ms) host n st).world = st.world ∧
        (pollCycles root (m :: ms) host n st).last_service = st.last_service ∧
        (pollCycles root (m :: ms) host n st).last_method = st.last_method ∧
        (pollCycles root (m :: ms) host n st).result = st.result) ∧
      ((∀ x ∈ ms, x.Service = m.Service ∧ x.Action = m.Action) →
        (m.Service ≠ st.last_service ∨ m.Action ≠ st.last_method) →
        (∃ service action, root.Services m.Service = some service ∧
          service.Actions m.Action = some action ∧ (action.Call st.world).1.err = none) →
        (pollCycles root (m :: ms) host (n + 1) st).calls =
          st.calls ++ [(m.Service, m.Action)]) := by
  refine ⟨?_, ?_, ?_⟩
  · intro hs ha
    rw [loopBody_hit root { st with sr := ⟨"wan", []⟩ } m hs ha]
    simp [appendResult]
  · intro hall
    exact pollCycles_all_hit root (m :: ms) host n st hall
  · rintro hall hmiss ⟨service, action, hs, ha, hok⟩
    obtain ⟨hc, hls, hlm⟩ := pollCycle_first_call root host st m ms service action hall hmiss hs ha hok
    have h1 : ∀ x ∈ m :: ms, x.Service = (pollCycle root (m :: ms) host st).last_service ∧
        x.Action = (pollCycle root (m :: ms) host st).last_method := by
      intro x hx
      rw [hls, hlm]
      rcases List.mem_cons.mp hx with rfl | hmem
      · exact ⟨rfl, rfl⟩
      · exact hall x hmem
    have h2 := (pollCycles_all_hit root (m :: ms) host n _ h1).1
    show (pollCycles root (m :: ms) host n (pollCycle root (m :: ms) host st)).calls = _
    rw [h2, hc]

theorem cache_persists_witness :
    ((loopBody demoRoot { pollCycle demoRoot demoTableA "h" (initVars 0) with sr := ⟨"wan", []⟩ }
          ⟨"svc", "GetA", "x", "a_x"⟩).calls = [("svc", "GetA")] ∧
        (loopBody demoRoot { pollCycle demoRoot demoTableA "h" (initVars 0) with sr := ⟨"wan", []⟩ }
          ⟨"svc", "GetA", "x", "a_x"⟩).sr.Results = [⟨"a_x", "1"⟩]) ∧
      (pollCycles demoRoot demoTableA "h" 7 (pollCycle demoRoot demoTableA "h" (initVars 0))).calls =
        [("svc", "GetA")] ∧
      (pollCycles demoRoot demoTableA "h" (7 + 1) (initVars 0)).calls = [] ++ [("svc", "GetA")] :=
  ⟨⟨((cache_persists demoRoot "h" (pollCycle demoRoot demoTableA "h" (initVars 0))
        ⟨"svc", "GetA", "x", "a_x"⟩ [⟨"svc", "GetA", "y", "a_y"⟩] 7).1 rfl rfl).1,
      ((cache_persists demoRoot "h" (pollCycle demoRoot demoTableA "h" (initVars 0))
        ⟨"svc", "GetA", "x", "a_x"⟩ [⟨"svc", "GetA", "y", "a_y"⟩] 7).1 rfl rfl).2.2.2⟩,
    ((cache_persists demoRoot "h" (pollCycle demoRoot demoTableA "h" (initVars 0))
        ⟨"svc", "GetA", "x", "a_x"⟩ [⟨"svc", "GetA", "y", "a_y"⟩] 7).2.1 (by decide)).1,
    (cache_persists demoRoot "h" (initVars 0)
        ⟨"svc", "GetA", "x", "a_x"⟩ [⟨"svc", "GetA", "y", "a_y"⟩] 7).2.2 (by decide) (by decide)
      ⟨_, _, rfl, rfl, rfl⟩⟩

/-! ### Degraded cycles and absent fields -/

theorem linePrefix_eq (host : String) :
    "fritzbox" ++ ",host=\"" ++ host ++ "\",source=" ++ "wan" ++ " " =
      "fritzbox,host=\"" ++ host ++ "\",source=wan " := by
  have h1 : ("fritzbox" : String) ++ ",host=\"" = "fritzbox,host=\"" := by decide
  have h2 : ("\",source=" : String) ++ ("wan" ++ " ") = "\",source=wan " := by decide
  rw [h1, String.append_assoc, String.append_assoc, h2]

/-- C11: every poll cycle, whatever fails in it, ends by writing exactly one
line; when every entry fails or yields `<nil>`, that line is the tags
`fritzbox,host="<host>",source=wan` followed by one space and no field. -/
theorem pollCycle_emits_one_line {W : Type} (root : upnp.Root W) (table : List ServiceActions)
    (host : String) (st : Vars W) :
    (pollCycle root table host st).out = st.out ++ [cycleLine root table host st ++ "\n"] ∧
      ((∀ p ∈ succeeded root { st with sr := ⟨"wan", []⟩ } table, p.2 = "<nil>") →
        cycleLine root table host st = "fritzbox,host=\"" ++ host ++ "\",source=wan ") := by
  refine ⟨pollCycle_out root table host st, ?_⟩
  intro hall
  have hk : keptEntries root { st with sr := ⟨"wan", []⟩ } table = [] := by
    unfold keptEntries
    rw [List.filter_eq_nil_iff]
    intro p hp
    simp [hall p hp]
  rw [cycleLine_eq, hk, linePrefix_eq]
  simp [String.intercalate]

theorem pollCycle_emits_one_line_witness :
    (pollCycle emptyRoot Actions "192.168.178.1" (initVars ())).out =
        [] ++ [cycleLine emptyRoot Actions "192.168.178.1" (initVars ()) ++ "\n"] ∧
      cycleLine emptyRoot Actions "192.168.178.1" (initVars ()) =
        "fritzbox,host=\"" ++ "192.168.178.1" ++ "\",source=wan " :=
  ⟨(pollCycle_emits_one_line emptyRoot Actions "192.168.178.1" (initVars ())).1,
    (pollCycle_emits_one_line emptyRoot Actions "192.168.178.1" (initVars ())).2 (by decide)⟩

theorem entryValue_eq_map {W : Type} (root : upnp.Root W) (st : Vars W) (m : ServiceActions) :
    entryValue root st m =
      (entryMapping root st m).map (fun r => fmt.Sprint (r.lookup m.Result)) := by
  unfold entryValue entryMapping
  by_cases hhit : m.Service = st.last_service ∧ m.Action = st.last_method
  · simp [hhit]
  · rw [if_neg hhit, if_neg hhit]
    cases hs : root.Services m.Service with
    | none => simp
    | some service =>
      cases ha : service.Actions m.Action with
      | none => simp [ha]
      | some action =>
        cases he : (action.Call st.world).1.err with
        | some e => simp [ha, he]
        | none => simp [ha, he]

theorem loopBody_log_of_mapping {W : Type} (root : upnp.Root W) (st : Vars W)
    (m : ServiceActions) (r : upnp.Result) (h : entryMapping root st m = some r) :
    (loopBody root st m).log = st.log := by
  unfold entryMapping at h
  unfold loopBody
  by_cases hhit : m.Service = st.last_service ∧ m.Action = st.last_method
  · have hmiss : ¬(m.Service ≠ st.last_service ∨ m.Action ≠ st.last_method) := by
      rintro (h1 | h1)
      · exact h1 hhit.1
      · exact h1 hhit.2
    simp [hmiss, appendResult]
  · have hmiss : m.Service ≠ st.last_service ∨ m.Action ≠ st.last_method := by
      by_cases h1 : m.Service = st.last_service
      · right
        intro h2
        exact hhit ⟨h1, h2⟩
      · exact Or.inl h1
    rw [if_neg hhit] at h
    rw [if_pos hmiss]
    cases hs : root.Services m.Service with
    | none => simp [hs] at h
    | some service =>
      cases ha : service.Actions m.Action with
      | none => simp [hs, ha] at h
      | some action =>
        cases he : (action.Call st.world).1.err with
        | some e => simp [hs, ha, he] at h
        | none => simp [ha, he, appendResult]

theorem succeeded_append {W : Type} (root : upnp.Root W) (l1 l2 : List ServiceActions)
    (st : Vars W) :
    succeeded root st (l1 ++ l2) =
      succeeded root st l1 ++ succeeded root (l1.foldl (loopBody root) st) l2 := by
  induction l1 generalizing st with
  | nil => simp [succeeded]
  | cons m ms ih =>
    rw [List.cons_append, succeeded_cons, succeeded_cons, List.foldl_cons, ih]
    cases entryValue root st m with
    | none => rfl
    | some v => rfl

/-- C12: an entry that does not fail and whose result field is absent from
the mapping it reads writes no log message, is appended to the batch with the
text `<nil>`, and adds no field to the line: the line of the cycle is made of
the fields of the entries before it and of the entries after it, and a batch
is formatted as if the value were not in it. -/
theorem absent_field_dropped {W : Type} (root : upnp.Root W) (host : String) (st : Vars W)
    (pre post : List ServiceActions) (m : ServiceActions) (r : upnp.Result)
    (hmap : entryMapping root (pre.foldl (loopBody root) { st with sr := ⟨"wan", []⟩ }) m =
      some r)
    (habsent : r.lookup m.Result = none) :
    (loopBody root (pre.foldl (loopBody root) { st with sr := ⟨"wan", []⟩ }) m).log =
        (pre.foldl (loopBody root) { st with sr := ⟨"wan", []⟩ }).log ∧
      (loopBody root (pre.foldl (loopBody root) { st with sr := ⟨"wan", []⟩ }) m).sr.Results =
        (pre.foldl (loopBody root) { st with sr := ⟨"wan", []⟩ }).sr.Results ++
          [Result.mk m.Name "<nil>"] ∧
      cycleLine root (pre ++ m :: post) host st =
        "fritzbox" ++ ",host=\"" ++ host ++ "\",source=" ++ "wan" ++ " " ++
          ",".intercalate
            ((keptEntries root { st with sr := ⟨"wan", []⟩ } pre ++
              keptEntries root
                (loopBody root (pre.foldl (loopBody root) { st with sr := ⟨"wan", []⟩ }) m)
                post).map fieldOf) ∧
      (∀ (name bucket h : String) (rs1 rs2 : List Result),
        (ServiceResults.mk name (rs1 ++ Result.mk m.Name "<nil>" :: rs2)).influxString bucket h =
          (ServiceResults.mk name (rs1 ++ rs2)).influxString bucket h) := by
  have hval : entryValue root (pre.foldl (loopBody root) { st with sr := ⟨"wan", []⟩ }) m =
      some "<nil>" := by
    rw [entryValue_eq_map, hmap]
    simp [habsent, fmt.Sprint]
  refine ⟨loopBody_log_of_mapping root _ m r hmap, ?_, ?_, ?_⟩
  · have h := (loopBody_sr root (pre.foldl (loopBody root) { st with sr := ⟨"wan", []⟩ }) m).2
    rw [hval] at h
    exact h
  · rw [cycleLine_eq]
    unfold keptEntries
    rw [succeeded_append, succeeded_cons, hval]
    simp
  · intro name bucket h rs1 rs2
    simp [ServiceResults.influxString, influxResultsLoop_eq]

theorem absent_field_dropped_witness :
    cycleLine demoRoot
        ([⟨"svc", "GetA", "x", "a_x"⟩] ++ ⟨"svc", "GetA", "q", "a_q"⟩ ::
          [⟨"svc", "GetB", "z", "b_z"⟩]) "h" (initVars 0) =
        "fritzbox,host=\"h\",source=wan a_x=1i,b_z=4i" ∧
      (loopBody demoRoot
        (List.foldl (loopBody demoRoot) { initVars 0 with sr := ⟨"wan", []⟩ }
          [⟨"svc", "GetA", "x", "a_x"⟩]) ⟨"svc", "GetA", "q", "a_q"⟩).log = [] :=
  ⟨(absent_field_dropped demoRoot "h" (initVars 0) [⟨"svc", "GetA", "x", "a_x"⟩]
        [⟨"svc", "GetB", "z", "b_z"⟩] ⟨"svc", "GetA", "q", "a_q"⟩ [("x", "1"), ("y", "2.5")]
        (by decide) (by decide)).2.2.1.trans (by decide),
    (absent_field_dropped demoRoot "h" (initVars 0) [⟨"svc", "GetA", "x", "a_x"⟩]
        [⟨"svc", "GetB", "z", "b_z"⟩] ⟨"svc", "GetA", "q", "a_q"⟩ [("x", "1"), ("y", "2.5")]
        (by decide) (by decide)).1.trans (by decide)⟩

/-! ### The built-in table -/

theorem succeeded_mem {W : Type} (root : upnp.Root W) (table : List ServiceActions)
    (st : Vars W) (p : ServiceActions × String) (hp : p ∈ succeeded root st table) :
    p.1 ∈ table :=
  (succeeded_sublist root table st).subset (List.mem_map_of_mem Prod.fst hp)

theorem intercalate_cons_eq (sep x : String) (l : List String) :
    ∃ tail : String, sep.intercalate (x :: l) = x ++ tail := by
  refine ⟨String.intercalate.go "" sep l, ?_⟩
  have h := strings.intercalate_go_append sep x "" l
  simpa [String.intercalate] using h

/-- C13: on the built-in table, from the empty cache, with host
`192.168.178.1` and a collaborator whose actions `GetTotalPacketsReceived`
and `GetTotalPacketsSent` resolve and return the mapping with
`TotalPacketsReceived` `100` and `TotalPacketsSent` `<nil>`, the line of the
cycle begins with the tags and the field `packets_received=100i` and has no
field named `packets_sent`. -/
theorem end_to_end_packets {W : Type} (root : upnp.Root W) (w : W)
    (service : upnp.Service W) (a1 a2 : upnp.Action W)
    (hs : root.Services "urn:schemas-upnp-org:service:WANCommonInterfaceConfig:1" = some service)
    (h1 : service.Actions "GetTotalPacketsReceived" = some a1)
    (h2 : service.Actions "GetTotalPacketsSent" = some a2)
    (hr1 : ∀ x, (a1.Call x).1.result = stubMapping ∧ (a1.Call x).1.err = none)
    (hr2 : ∀ x, (a2.Call x).1.result = stubMapping ∧ (a2.Call x).1.err = none) :
    (∃ tail : String, cycleLine root Actions "192.168.178.1" (initVars w) =
        "fritzbox,host=\"192.168.178.1\",source=wan packets_received=100i" ++ tail) ∧
      ∀ p ∈ keptEntries root { initVars w with sr := ⟨"wan", []⟩ } Actions,
        p.1.Name ≠ "packets_sent" := by
  have hA : Actions =
      ⟨"urn:schemas-upnp-org:service:WANCommonInterfaceConfig:1", "GetTotalPacketsReceived",
        "TotalPacketsReceived", "packets_received"⟩ ::
      ⟨"urn:schemas-upnp-org:service:WANCommonInterfaceConfig:1", "GetTotalPacketsSent",
        "TotalPacketsSent", "packets_sent"⟩ :: Actions.drop 2 := rfl
  have hv1 : entryValue root { initVars w with sr := ⟨"wan", []⟩ }
      ⟨"urn:schemas-upnp-org:service:WANCommonInterfaceConfig:1", "GetTotalPacketsReceived",
        "TotalPacketsReceived", "packets_received"⟩ = some "100" := by
    simp [entryValue, initVars, hs, h1, hr1, stubMapping, fmt.Sprint, List.lookup]
  have hmiss1 : ("urn:schemas-upnp-org:service:WANCommonInterfaceConfig:1" : String) ≠
        ({ initVars w with sr := ⟨"wan", []⟩ } : Vars W).last_service ∨
      ("GetTotalPacketsReceived" : String) ≠
        ({ initVars w with sr := ⟨"wan", []⟩ } : Vars W).last_method := by
    left
    simp [initVars]
  have hstep1 := loopBody_call root { initVars w with sr := ⟨"wan", []⟩ }
    ⟨"urn:schemas-upnp-org:service:WANCommonInterfaceConfig:1", "GetTotalPacketsReceived",
      "TotalPacketsReceived", "packets_received"⟩ service a1 hmiss1 hs h1 (hr1 _).2
  have hv2 : entryValue root
      (loopBody root { initVars w with sr := ⟨"wan", []⟩ }
        ⟨"urn:schemas-upnp-org:service:WANCommonInterfaceConfig:1", "GetTotalPacketsReceived",
          "TotalPacketsReceived", "packets_received"⟩)
      ⟨"urn:schemas-upnp-org:service:WANCommonInterfaceConfig:1", "GetTotalPacketsSent",
        "TotalPacketsSent", "packets_sent"⟩ = some "<nil>" := by
    rw [hstep1]
    simp [entryValue, appendResult, hs, h2, hr2, stubMapping, fmt.Sprint, List.lookup]
  have hk : keptEntries root { initVars w with sr := ⟨"wan", []⟩ } Actions =
      (⟨"urn:schemas-upnp-org:service:WANCommonInterfaceConfig:1", "GetTotalPacketsReceived",
        "TotalPacketsReceived", "packets_received"⟩, "100") ::
      (succeeded root
        (loopBody root
          (loopBody root { initVars w with sr := ⟨"wan", []⟩ }
            ⟨"urn:schemas-upnp-org:service:WANCommonInterfaceConfig:1", "GetTotalPacketsReceived",
              "TotalPacketsReceived", "packets_received"⟩)
          ⟨"urn:schemas-upnp-org:service:WANCommonInterfaceConfig:1", "GetTotalPacketsSent",
            "TotalPacketsSent", "packets_sent"⟩)
        (Actions.drop 2)).filter (fun p => decide (p.2 ≠ "<nil>")) := by
    unfold keptEntries
    rw [hA, succeeded_cons, hv1]
    simp only
    rw [succeeded_cons, hv2]
    simp
  constructor
  · rw [cycleLine_eq, hk, linePrefix_eq, List.map_cons]
    obtain ⟨tail, ht⟩ := intercalate_cons_eq ","
      (fieldOf (⟨"urn:schemas-upnp-org:service:WANCommonInterfaceConfig:1",
        "GetTotalPacketsReceived", "TotalPacketsReceived", "packets_received"⟩, "100"))
      (List.map fieldOf ((succeeded root
        (loopBody root
          (loopBody root { initVars w with sr := ⟨"wan", []⟩ }
            ⟨"urn:schemas-upnp-org:service:WANCommonInterfaceConfig:1", "GetTotalPacketsReceived",
              "TotalPacketsReceived", "packets_received"⟩)
          ⟨"urn:schemas-upnp-org:service:WANCommonInterfaceConfig:1", "GetTotalPacketsSent",
            "TotalPacketsSent", "packets_sent"⟩)
        (Actions.drop 2)).filter (fun p => decide (p.2 ≠ "<nil>"))))
    refine ⟨tail, ?_⟩
    rw [ht]
    have hf : fieldOf (⟨"urn:schemas-upnp-org:service:WANCommonInterfaceConfig:1",
        "GetTotalPacketsReceived", "TotalPacketsReceived", "packets_received"⟩, "100") =
        "packets_received=100i" := by decide
    have hl : ("fritzbox,host=\"" : String) ++ "192.168.178.1" ++ "\",source=wan " ++
        "packets_received=100i" =
        "fritzbox,host=\"192.168.178.1\",source=wan packets_received=100i" := by decide
    rw [hf, ← hl]
    simp only [String.append_assoc]
  · intro p hp
    rw [hk] at hp
    rcases List.mem_cons.mp hp with rfl | hmem
    · decide
    · have hin := succeeded_mem root _ _ p (List.mem_filter.mp hmem).1
      have hall : ∀ m ∈ Actions.drop 2, m.Name ≠ "packets_sent" := by decide
      exact hall p.1 hin

theorem end_to_end_packets_witness :
    (∃ tail : String, cycleLine stubRoot Actions "192.168.178.1" (initVars ()) =
        "fritzbox,host=\"192.168.178.1\",source=wan packets_received=100i" ++ tail) ∧
      (∀ p ∈ keptEntries stubRoot { initVars () with sr := ⟨"wan", []⟩ } Actions,
        p.1.Name ≠ "packets_sent") ∧
      cycleLine stubRoot Actions "192.168.178.1" (initVars ()) =
        "fritzbox,host=\"192.168.178.1\",source=wan packets_received=100i" :=
  ⟨(end_to_end_packets stubRoot () _ _ _ rfl rfl rfl (fun _ => ⟨rfl, rfl⟩)
      (fun _ => ⟨rfl, rfl⟩)).1,
    (end_to_end_packets stubRoot () _ _ _ rfl rfl rfl (fun _ => ⟨rfl, rfl⟩)
      (fun _ => ⟨rfl, rfl⟩)).2,
    by decide⟩

/-! ### The trigger loop -/

theorem mainLoop_out_length {W : Type} (root : upnp.Root W) (table : List ServiceActions)
    (host : String) (k : Nat) (stdin : List String) (st : Vars W) :
    (mainLoop root table host k stdin st).2.out.length = st.out.length + k ∧
      (mainLoop root table host k stdin st).1 = stdin.drop k := by
  induction k generalizing stdin st with
  | zero => simp [mainLoop]
  | succ n ih =>
    obtain ⟨h1, h2⟩ := ih (readTrigger stdin) (pollCycle root table host st)
    rw [mainLoop, h1, h2, pollCycle_out]
    constructor
    · simp only [List.length_append, List.length_singleton]
      omega
    · simp [readTrigger]

set_option maxRecDepth 100000 in
/-- C14, the code on an input of one trigger line followed by end of stream:
the loop has no exit and discards the results of `ReadString`, so its first
three iterations run three poll cycles and write three lines, two of them
after the input is exhausted. -/
theorem mainLoop_runs_past_end_of_stream :
    (mainLoop stubRoot Actions "192.168.178.1" 1 ["\n"] (initVars ())).1 = [] ∧
      (mainLoop stubRoot Actions "192.168.178.1" 3 ["\n"] (initVars ())).2.out =
        ["fritzbox,host=\"192.168.178.1\",source=wan packets_received=100i\n",
          "fritzbox,host=\"192.168.178.1\",source=wan packets_received=100i\n",
          "fritzbox,host=\"192.168.178.1\",source=wan packets_received=100i\n"] ∧
      ∀ k : Nat, (mainLoop stubRoot Actions "192.168.178.1" k ["\n"] (initVars ())).2.out.length =
        k := by
  refine ⟨by decide, by decide, ?_⟩
  intro k
  have h := (mainLoop_out_length stubRoot Actions "192.168.178.1" k ["\n"] (initVars ())).1
  simpa [initVars] using h

/-! ### The number of invocations -/

theorem succeeded_length_le {W : Type} (root : upnp.Root W) (table : List ServiceActions)
    (st : Vars W) : (succeeded root st table).length ≤ table.length := by
  have h := (succeeded_sublist root table st).length_le
  simpa using h

theorem loopBody_of_value {W : Type} (root : upnp.Root W) (st : Vars W) (m : ServiceActions)
    (v : String) (h : entryValue root st m = some v) :
    (loopBody root st m).last_service = m.Service ∧
      (loopBody root st m).last_method = m.Action ∧
      (loopBody root st m).calls = st.calls ++
        (if (m.Service, m.Action) = (st.last_service, st.last_method) then []
          else [(m.Service, m.Action)]) := by
  unfold entryValue at h
  by_cases hhit : m.Service = st.last_service ∧ m.Action = st.last_method
  · rw [loopBody_hit root st m hhit.1 hhit.2]
    have hp : (m.Service, m.Action) = (st.last_service, st.last_method) := by
      rw [hhit.1, hhit.2]
    rw [if_pos hp]
    simp [appendResult, hhit.1, hhit.2]
  · have hmiss : m.Service ≠ st.last_service ∨ m.Action ≠ st.last_method := by
      by_cases h1 : m.Service = st.last_service
      · right
        intro h2
        exact hhit ⟨h1, h2⟩
      · exact Or.inl h1
    have hp : ¬((m.Service, m.Action) = (st.last_service, st.last_method)) := by
      intro hp
      exact hhit ⟨congrArg Prod.fst hp, congrArg Prod.snd hp⟩
    rw [if_neg hhit] at h
    rw [if_neg hp]
    cases hs : root.Services m.Service with
    | none => simp [hs] at h
    | some service =>
      cases ha : service.Actions m.Action with
      | none => simp [hs, ha] at h
      | some action =>
        cases he : (action.Call st.world).1.err with
        | some e => simp [hs, ha, he] at h
        | none =>
          rw [loopBody_call root st m service action hmiss hs ha he]
          simp [appendResult]

theorem foldl_calls_expected {W : Type} (root : upnp.Root W) (table : List ServiceActions)
    (st : Vars W) (hall : (succeeded root st table).length = table.length) :
    (table.foldl (loopBody root) st).calls =
      st.calls ++ expectedCalls (st.last_service, st.last_method) table := by
  induction table generalizing st with
  | nil => simp [expectedCalls]
  | cons m ms ih =>
    rw [succeeded_cons] at hall
    cases hv : entryValue root st m with
    | none =>
      rw [hv] at hall
      have hle := succeeded_length_le root ms (loopBody root st m)
      simp only [List.length_cons] at hall
      omega
    | some v =>
      rw [hv] at hall
      simp only [List.length_cons, Nat.add_right_cancel_iff] at hall
      obtain ⟨hls, hlm, hc⟩ := loopBody_of_value root st m v hv
      rw [List.foldl_cons, ih (loopBody root st m) hall, hls, hlm, hc, expectedCalls]
      by_cases hp : (m.Service, m.Action) = (st.last_service, st.last_method)
      · rw [if_pos hp, if_pos hp, List.append_nil, ← hp]
      · rw [if_neg hp, if_neg hp, List.append_assoc]
        rfl

theorem succeeded_eq_of_length {W : Type} (root : upnp.Root W) (table : List ServiceActions)
    (st : Vars W) (hall : (succeeded root st table).length = table.length) :
    (succeeded root st table).map Prod.fst = table :=
  (succeeded_sublist root table st).eq_of_length (by simpa using hall)

theorem pollCycle_calls {W : Type} (root : upnp.Root W) (table : List ServiceActions)
    (host : String) (st : Vars W) :
    (pollCycle root table host st).calls =
      (table.foldl (loopBody root) { st with sr := ⟨"wan", []⟩ }).calls := rfl

set_option maxRecDepth 100000 in
/-- C15, as amended: on the built-in table, in every poll cycle that starts
with a cached pair other than the pair of the first entry (the first cycle,
and every cycle after one that ended on another pair) and in which no entry
fails, the collaborator is invoked exactly 5 times, once per distinct pair of
the table and in table order, and all 14 entries are appended to the batch. -/
theorem calls_minimal {W : Type} (root : upnp.Root W) (host : String) (st : Vars W)
    (hstart : "urn:schemas-upnp-org:service:WANCommonInterfaceConfig:1" ≠ st.last_service ∨
      "GetTotalPacketsReceived" ≠ st.last_method)
    (hall : (succeeded root { st with sr := ⟨"wan", []⟩ } Actions).length = Actions.length) :
    (pollCycle root Actions host st).calls = st.calls ++
        [("urn:schemas-upnp-org:service:WANCommonInterfaceConfig:1", "GetTotalPacketsReceived"),
          ("urn:schemas-upnp-org:service:WANCommonInterfaceConfig:1", "GetTotalPacketsSent"),
          ("urn:schemas-upnp-org:service:WANCommonInterfaceConfig:1", "GetAddonInfos"),
          ("urn:schemas-upnp-org:service:WANCommonInterfaceConfig:1", "GetCommonLinkProperties"),
          ("urn:schemas-upnp-org:service:WANIPConnection:1", "GetStatusInfo")] ∧
      (Actions.map (fun m => (m.Service, m.Action))).dedup =
        [("urn:schemas-upnp-org:service:WANCommonInterfaceConfig:1", "GetTotalPacketsReceived"),
          ("urn:schemas-upnp-org:service:WANCommonInterfaceConfig:1", "GetTotalPacketsSent"),
          ("urn:schemas-upnp-org:service:WANCommonInterfaceConfig:1", "GetAddonInfos"),
          ("urn:schemas-upnp-org:service:WANCommonInterfaceConfig:1", "GetCommonLinkProperties"),
          ("urn:schemas-upnp-org:service:WANIPConnection:1", "GetStatusInfo")] ∧
      ((Actions.foldl (loopBody root) { st with sr := ⟨"wan", []⟩ }).sr.Results.map Result.Name =
        Actions.map ServiceActions.Name) ∧
      (Actions.foldl (loopBody root) { st with sr := ⟨"wan", []⟩ }).sr.Results.length = 14 := by
  have hres : (Actions.foldl (loopBody root) { st with sr := ⟨"wan", []⟩ }).sr.Results.map
      Result.Name = Actions.map ServiceActions.Name := by
    rw [(foldl_loopBody_sr root Actions { st with sr := ⟨"wan", []⟩ }).2]
    simp only [List.nil_append, List.map_map]
    have h := succeeded_eq_of_length root Actions _ hall
    calc List.map (Result.Name ∘ fun p => Result.mk p.1.Name p.2)
            (succeeded root { st with sr := ⟨"wan", []⟩ } Actions)
          = List.map ServiceActions.Name
              (List.map Prod.fst (succeeded root { st with sr := ⟨"wan", []⟩ } Actions)) := by
            rw [List.map_map]
            rfl
      _ = List.map ServiceActions.Name Actions := by rw [h]
  refine ⟨?_, by decide, hres, ?_⟩
  · have hc : (Actions.foldl (loopBody root) { st with sr := ⟨"wan", []⟩ }).calls =
        st.calls ++ expectedCalls (st.last_service, st.last_method) Actions :=
      foldl_calls_expected root Actions { st with sr := ⟨"wan", []⟩ } hall
    have hA : Actions =
        ⟨"urn:schemas-upnp-org:service:WANCommonInterfaceConfig:1", "GetTotalPacketsReceived",
          "TotalPacketsReceived", "packets_received"⟩ :: Actions.drop 1 := rfl
    have hp : ¬(("urn:schemas-upnp-org:service:WANCommonInterfaceConfig:1",
        "GetTotalPacketsReceived") = (st.last_service, st.last_method)) := by
      intro hp
      rcases hstart with h | h
      · exact h (congrArg Prod.fst hp)
      · exact h (congrArg Prod.snd hp)
    have hrest : expectedCalls
        ("urn:schemas-upnp-org:service:WANCommonInterfaceConfig:1", "GetTotalPacketsReceived")
        (Actions.drop 1) =
        [("urn:schemas-upnp-org:service:WANCommonInterfaceConfig:1", "GetTotalPacketsSent"),
          ("urn:schemas-upnp-org:service:WANCommonInterfaceConfig:1", "GetAddonInfos"),
          ("urn:schemas-upnp-org:service:WANCommonInterfaceConfig:1", "GetCommonLinkProperties"),
          ("urn:schemas-upnp-org:service:WANIPConnection:1", "GetStatusInfo")] := by decide
    rw [pollCycle_calls, hc, hA, expectedCalls, if_neg hp, hrest]
  · have h := congrArg List.length hres
    simp only [List.length_map] at h
    rw [h]
    rfl

set_option maxRecDepth 100000 in
theorem calls_minimal_witness :
    (pollCycle stubRoot Actions "192.168.178.1" (initVars ())).calls = [] ++
        [("urn:schemas-upnp-org:service:WANCommonInterfaceConfig:1", "GetTotalPacketsReceived"),
          ("urn:schemas-upnp-org:service:WANCommonInterfaceConfig:1", "GetTotalPacketsSent"),
          ("urn:schemas-upnp-org:service:WANCommonInterfaceConfig:1", "GetAddonInfos"),
          ("urn:schemas-upnp-org:service:WANCommonInterfaceConfig:1", "GetCommonLinkProperties"),
          ("urn:schemas-upnp-org:service:WANIPConnection:1", "GetStatusInfo")] ∧
      (Actions.foldl (loopBody stubRoot)
        { initVars () with sr := ⟨"wan", []⟩ }).sr.Results.length = 14 :=
  ⟨(calls_minimal stubRoot "192.168.178.1" (initVars ()) (by decide) (by decide)).1,
    (calls_minimal stubRoot "192.168.178.1" (initVars ()) (by decide) (by decide)).2.2.2⟩

set_option maxRecDepth 100000 in
/-- C15 fails as stated: with a collaborator whose invocations 1 to 13 fail,
the first cycle on the built-in table ends with the pair of the first entry
still cached; in the second cycle no entry fails and all 14 entries are
appended, yet only 4 invocations are made, the first entry being a cache
hit. -/
theorem calls_minimal_counterexample :
    (pollCycle (scheduleRoot (fun w => decide (w = 0) || decide (14 ≤ w))) Actions "h"
        (initVars 0)).last_method = "GetTotalPacketsReceived" ∧
      (succeeded (scheduleRoot (fun w => decide (w = 0) || decide (14 ≤ w)))
        { pollCycle (scheduleRoot (fun w => decide (w = 0) || decide (14 ≤ w))) Actions "h"
            (initVars 0) with sr := ⟨"wan", []⟩ } Actions).length = 14 ∧
      (pollCycles (scheduleRoot (fun w => decide (w = 0) || decide (14 ≤ w))) Actions "h" 2
        (initVars 0)).calls =
        (pollCycle (scheduleRoot (fun w => decide (w = 0) || decide (14 ≤ w))) Actions "h"
          (initVars 0)).calls ++
        [("urn:schemas-upnp-org:service:WANCommonInterfaceConfig:1", "GetTotalPacketsSent"),
          ("urn:schemas-upnp-org:service:WANCommonInterfaceConfig:1", "GetAddonInfos"),
          ("urn:schemas-upnp-org:service:WANCommonInterfaceConfig:1", "GetCommonLinkProperties"),
          ("urn:schemas-upnp-org:service:WANIPConnection:1", "GetStatusInfo")] := by
  decide

/-! ### Coherence of the cache slot -/

set_option maxRecDepth 100000 in
/-- C16, the code on the built-in table with a collaborator whose first 5
invocations succeed and whose later ones fail with the nil mapping: the
second cycle makes 11 failing invocations, the last of them overwrites
`result` with the nil mapping while the cached pair stays
`GetStatusInfo`, and the entries 12 to 14 are then cache hits that read
`<nil>` from that mapping, not from the mapping `deviceFields` returned by
the successful invocation of their pair. -/
theorem cache_incoherent_after_failed_call :
    (pollCycle (scheduleRoot (fun w => decide (w < 5))) Actions "h" (initVars 0)).result =
        deviceFields ∧
      (pollCycles (scheduleRoot (fun w => decide (w < 5))) Actions "h" 2 (initVars 0)).last_service =
        "urn:schemas-upnp-org:service:WANIPConnection:1" ∧
      (pollCycles (scheduleRoot (fun w => decide (w < 5))) Actions "h" 2 (initVars 0)).last_method =
        "GetStatusInfo" ∧
      (pollCycles (scheduleRoot (fun w => decide (w < 5))) Actions "h" 2 (initVars 0)).result = [] ∧
      (pollCycles (scheduleRoot (fun w => decide (w < 5))) Actions "h" 2 (initVars 0)).sr.Results =
        [⟨"connection_status", "<nil>"⟩, ⟨"last_connection_error", "<nil>"⟩,
          ⟨"uptime", "<nil>"⟩] ∧
      (pollCycles (scheduleRoot (fun w => decide (w < 5))) Actions "h" 2 (initVars 0)).calls.length =
        5 + 11 ∧
      ("urn:schemas-upnp-org:service:WANIPConnection:1", "GetStatusInfo") ∉
        (pollCycles (scheduleRoot (fun w => decide (w < 5))) Actions "h" 2
          (initVars 0)).calls.drop 5 := by
  decide

/-! ### The forms of rendered values -/

theorem scanChar_of_isDigit (c : Char) (h : strconv.isDigit c = true) : scanChar c = true := by
  simp [scanChar, h]

theorem scanChar_of_isHexLetter (c : Char) (h : strconv.isHexLetter c = true) :
    scanChar c = true := by
  simp [scanChar, h]

theorem strconv.readMant_scan (base : Nat) (s : List Char) (m : strconv.Mant) :
    ∀ c ∈ s, scanChar c = true ∨ c ∈ (strconv.readMant base s m).2 := by
  induction s generalizing m with
  | nil => intro c hc; cases hc
  | cons d t ih =>
    intro c hc
    have hchar : ∀ m1 : strconv.Mant, scanChar d = true →
        (scanChar c = true ∨ c ∈ (strconv.readMant base t m1).2) := by
      intro m1 hd
      rcases List.mem_cons.mp hc with rfl | hmem
      · exact Or.inl hd
      · exact ih m1 c hmem
    unfold strconv.readMant
    split
    · next h => exact hchar _ (by subst h; decide)
    · split
      · next h =>
        split
        · exact Or.inr hc
        · exact hchar _ (by subst h; decide)
      · split
        · next hdig =>
          split
          · exact hchar _ (scanChar_of_isDigit d hdig)
          · exact hchar _ (scanChar_of_isDigit d hdig)
        · split
          · next hhex => exact hchar _ (scanChar_of_isHexLetter d hhex.2)
          · exact Or.inr hc

theorem strconv.readExpDigits_scan (s : List Char) (e : Nat) (u : Bool) :
    ∀ c ∈ s, scanChar c = true ∨ c ∈ (strconv.readExpDigits s e u).2.2 := by
  induction s generalizing e u with
  | nil => intro c hc; cases hc
  | cons d t ih =>
    intro c hc
    have hchar : ∀ (e1 : Nat) (u1 : Bool), scanChar d = true →
        (scanChar c = true ∨ c ∈ (strconv.readExpDigits t e1 u1).2.2) := by
      intro e1 u1 hd
      rcases List.mem_cons.mp hc with rfl | hmem
      · exact Or.inl hd
      · exact ih e1 u1 c hmem
    unfold strconv.readExpDigits
    split
    · next h => exact hchar _ _ (by subst h; decide)
    · split
      · next hdig => exact hchar _ _ (scanChar_of_isDigit d hdig)
      · exact Or.inr hc

theorem strconv.readExp_scan (hex : Bool) (dp : Int) (u : Bool) (s : List Char)
    (r : Int × Bool × List Char) (h : strconv.readExp hex dp u s = some r) :
    ∀ c ∈ s, scanChar c = true ∨ c ∈ r.2.2 := by
  cases s with
  | nil => intro c hc; cases hc
  | cons e t =>
    intro c hc
    unfold strconv.readExp at h
    simp only at h
    split at h
    · next hexp =>
      have he : scanChar e = true := by
        rcases hexp with ⟨_, rfl | rfl⟩ | ⟨_, rfl | rfl⟩ <;> decide
      cases t with
      | nil => simp at h
      | cons d t1 =>
        simp only at h
        split at h
        · simp at h
        · next d2 t3 ht2 =>
          split at h
          · simp only [Option.some.injEq] at h
            subst h
            simp only
            rw [ht2]
            have hrest : ∀ x ∈ d2 :: t3,
                scanChar x = true ∨ x ∈ (strconv.readExpDigits (d2 :: t3) 0 u).2.2 :=
              strconv.readExpDigits_scan (d2 :: t3) 0 u
            rcases List.mem_cons.mp hc with rfl | hmem
            · exact Or.inl he
            · by_cases hs : d = '+' ∨ d = '-'
              · rw [if_pos hs] at ht2
                rcases List.mem_cons.mp hmem with rfl | hmem1
                · left
                  rcases hs with rfl | rfl <;> decide
                · exact hrest c (ht2 ▸ hmem1)
              · rw [if_neg hs] at ht2
                exact hrest c (ht2 ▸ hmem)
          · simp at h
    · split at h
      · simp at h
      · simp only [Option.some.injEq] at h
        subst h
        exact Or.inr hc

theorem strconv.hasHexPrefix_scan (s : List Char) (h : strconv.hasHexPrefix s = true) :
    ∀ c ∈ s, scanChar c = true ∨ c ∈ s.drop 2 := by
  unfold strconv.hasHexPrefix at h
  split at h
  · next c0 x y t =>
    simp only [Bool.and_eq_true, Bool.or_eq_true, beq_iff_eq] at h
    intro c hc
    rcases List.mem_cons.mp hc with rfl | hmem
    · left
      rw [h.1]
      decide
    · rcases List.mem_cons.mp hmem with rfl | hmem1
      · left
        rcases h.2 with hx | hx <;> rw [hx] <;> decide
      · right
        simpa using hmem1
  · simp at h

theorem strconv.readNumber_scan (s : List Char) (neg : Bool) (s1 : List Char) (r : strconv.Read)
    (h : strconv.readNumber s neg s1 = some r) :
    ∀ c ∈ s1, scanChar c = true ∨ c ∈ r.rest := by
  unfold strconv.readNumber at h
  simp only at h
  have hP : ∀ c ∈ s1, scanChar c = true ∨
      c ∈ (if strconv.hasHexPrefix s1 = true then s1.drop 2 else s1) := by
    intro c hc
    by_cases hh : strconv.hasHexPrefix s1 = true
    · rw [if_pos hh]
      exact strconv.hasHexPrefix_scan _ hh c hc
    · rw [if_neg hh]
      exact Or.inr hc
  have hM := strconv.readMant_scan (if strconv.hasHexPrefix s1 = true then 16 else 10)
    (if strconv.hasHexPrefix s1 = true then s1.drop 2 else s1) ⟨0, 0, 0, false, false, false⟩
  generalize strconv.readMant (if strconv.hasHexPrefix s1 = true then 16 else 10)
    (if strconv.hasHexPrefix s1 = true then s1.drop 2 else s1)
    ⟨0, 0, 0, false, false, false⟩ = mr at h hM
  split at h
  · simp at h
  · split at h
    · simp at h
    · next dp u rest hexp =>
      have hE := strconv.readExp_scan _ _ _ _ _ hexp
      simp only at hE
      split at h
      · simp at h
      · simp only [Option.some.injEq] at h
        subst h
        simp only
        intro c hc
        rcases hP c hc with h1 | h1
        · exact Or.inl h1
        rcases hM c h1 with h2 | h2
        · exact Or.inl h2
        · exact hE c h2

theorem strconv.readFloat_scan (s : List Char) (r : strconv.Read)
    (h : strconv.readFloat s = some r) : ∀ c ∈ s, scanChar c = true ∨ c ∈ r.rest := by
  cases s with
  | nil => intro c hc; cases hc
  | cons d t =>
    unfold strconv.readFloat at h
    simp only at h
    have hN := strconv.readNumber_scan _ _ _ _ h
    intro c hc
    by_cases hs : d = '+' ∨ d = '-'
    · rw [if_pos hs] at hN
      rcases List.mem_cons.mp hc with rfl | hmem
      · left
        rcases hs with rfl | rfl <;> decide
      · exact hN c hmem
    · rw [if_neg hs] at hN
      exact hN c hc

theorem scanChar_ne_i (c : Char) (h : scanChar c = true) : c ≠ 'i' := by
  rintro rfl
  revert h
  decide

theorem numChar_ne_quote (c : Char) (h : numChar c = true) : c ≠ '"' := by
  rintro rfl
  revert h
  decide

theorem strconv.commonPrefixLen_map (s p : List Char)
    (h : s.length ≤ strconv.commonPrefixLenIgnoreCase s p) :
    s.map strconv.lowerAZ = p.take s.length := by
  induction s generalizing p with
  | nil => simp
  | cons d t ih =>
    cases p with
    | nil => simp [strconv.commonPrefixLenIgnoreCase] at h
    | cons q p1 =>
      simp only [strconv.commonPrefixLenIgnoreCase, List.length_cons] at h
      split at h
      · next heq =>
        simp only [List.map_cons, List.length_cons, List.take_succ_cons, heq]
        rw [ih p1 (by omega)]
      · omega

theorem strconv.last_ne_i_of_map (s l : List Char) (hm : s.map strconv.lowerAZ = l)
    (hl : l.getLast? ≠ some 'i') : s.getLast? ≠ some 'i' := by
  intro hs
  apply hl
  rw [← hm, List.getLast?_map, hs]
  decide

theorem strconv.specialInf_last (neg : Bool) (nsign : Nat) (s : List Char)
    (v : strconv.FloatVal) (n : Nat) (h : strconv.specialInf neg nsign s = some (v, n))
    (hn : n = nsign + s.length) : s.getLast? ≠ some 'i' := by
  have hle := strconv.commonPrefixLen_le s "infinity".toList
  have hmap := strconv.commonPrefixLen_map s "infinity".toList
  unfold strconv.specialInf at h
  simp only at h
  generalize strconv.commonPrefixLenIgnoreCase s "infinity".toList = k at h hle hmap
  have hlen : s.length ≤ k ∧ (s.length = 3 ∨ s.length = 8) := by
    by_cases hk : 3 < k ∧ k < 8
    · rw [if_pos hk] at h
      simp only [true_or, if_true, Option.some.injEq, Prod.mk.injEq] at h
      omega
    · rw [if_neg hk] at h
      by_cases hk2 : k = 3 ∨ k = 8
      · rw [if_pos hk2] at h
        simp only [Option.some.injEq, Prod.mk.injEq] at h
        omega
      · rw [if_neg hk2] at h
        simp at h
  have hm := hmap hlen.1
  rcases hlen.2 with h3 | h8
  · rw [h3] at hm
    exact strconv.last_ne_i_of_map s _ hm (by decide)
  · rw [h8] at hm
    exact strconv.last_ne_i_of_map s _ hm (by decide)

theorem strconv.special_last (s : List Char) (v : strconv.FloatVal) (n : Nat)
    (h : strconv.special s = some (v, n)) (hn : n = s.length) : s.getLast? ≠ some 'i' := by
  cases s with
  | nil => simp
  | cons d t =>
    unfold strconv.special at h
    simp only at h
    split at h
    · next hs =>
      have ht := strconv.specialInf_last _ 1 t v n h (by simp at hn; omega)
      rw [List.getLast?_cons]
      cases hl : t.getLast? with
      | none =>
        simp only [Option.getD_none, ne_eq, Option.some.injEq]
        rcases hs with rfl | rfl <;> decide
      | some x =>
        rw [hl] at ht
        simpa using ht
    · split at h
      · exact strconv.specialInf_last _ 0 (d :: t) v n h (by omega)
      · split at h
        · split at h
          · next hk =>
            simp only [Option.some.injEq, Prod.mk.injEq] at h
            have hm := strconv.commonPrefixLen_map (d :: t) "nan".toList (by omega)
            have h3 : (d :: t).length = 3 := by omega
            rw [h3] at hm
            exact strconv.last_ne_i_of_map _ _ hm (by decide)
          · simp at h
        · simp at h

theorem strconv.ParseFloat_last (raw : String) (v : strconv.FloatVal)
    (h : strconv.ParseFloat raw = some v) : raw.toList.getLast? ≠ some 'i' := by
  unfold strconv.ParseFloat at h
  simp only at h
  generalize raw.toList = cs at h ⊢
  cases hsp : strconv.special cs with
  | some wn =>
    obtain ⟨w, n⟩ := wn
    rw [hsp] at h
    simp only at h
    by_cases hn : n = cs.length
    · exact strconv.special_last cs w n hsp hn
    · rw [if_neg hn] at h
      simp at h
  | none =>
    rw [hsp] at h
    simp only at h
    cases hr : strconv.readFloat cs with
    | none =>
      rw [hr] at h
      simp at h
    | some r =>
      rw [hr] at h
      simp only at h
      by_cases hrest : r.rest = []
      · intro hlast
        have hmem := List.mem_of_getLast?_eq_some hlast
        rcases strconv.readFloat_scan cs r hr 'i' hmem with h1 | h1
        · exact scanChar_ne_i 'i' h1 rfl
        · rw [hrest] at h1
          cases h1
      · by_cases hov : strconv.overflows (if r.hex = true then 2 else 10) r.mantissa r.exp = true
        · rw [if_pos hov] at h
          simp at h
        · rw [if_neg hov] at h
          simp [hrest] at h

theorem influxString_eq_render (name raw : String) :
    (Result.mk name raw).influxString = name ++ "=" ++ renderValue raw := by
  unfold Result.influxString renderValue rawForm
  cases strconv.Atoi raw with
  | some v => rfl
  | none =>
    cases strconv.ParseFloat raw with
    | some v => rfl
    | none => rfl

theorem head_ne_quote_of_numChar (cs : List Char) (h : ∀ c ∈ cs, numChar c = true) :
    cs.head? ≠ some '"' := by
  intro hh
  exact numChar_ne_quote '"' (h '"' (List.mem_of_mem_head? hh)) rfl

theorem renderedForm_render (raw : String) : renderedForm (renderValue raw) = rawForm raw := by
  unfold renderValue rawForm
  cases ha : strconv.Atoi raw with
  | some v =>
    have hchars := strconv.Atoi_chars raw v ha
    have hhead := head_ne_quote_of_numChar raw.toList hchars
    simp only [renderedForm, String.toList, String.data_append]
    have h1 : (raw.data ++ "i".data).head? ≠ some '"' := by
      rw [List.head?_append]
      cases hd : raw.data.head? with
      | none => decide
      | some c =>
        intro hq
        apply hhead
        show raw.data.head? = some '"'
        rw [hd]
        simpa using hq
    have h2 : (raw.data ++ "i".data).getLast? = some 'i' := List.getLast?_concat raw.data
    rw [if_neg h1, if_pos h2]
  | none =>
    cases hf : strconv.ParseFloat raw with
    | some v =>
      have hchars := strconv.ParseFloat_chars raw v hf
      have hhead := head_ne_quote_of_numChar raw.toList hchars
      have hlast := strconv.ParseFloat_last raw v hf
      simp only [renderedForm]
      rw [if_neg hhead, if_neg hlast]
    | none =>
      simp only [renderedForm, String.toList, String.data_append]
      have h1 : ("\"".data ++ raw.data ++ "\"".data).head? = some '"' := by
        simp [List.head?_append]
      rw [if_pos h1]

theorem renderValue_injective (a b : String) (h : renderValue a = renderValue b) : a = b := by
  have hform : rawForm a = rawForm b := by
    rw [← renderedForm_render a, ← renderedForm_render b, h]
  unfold renderValue at h
  rw [← hform] at h
  cases hfa : rawForm a with
  | integer =>
    rw [hfa] at h
    simp only [String.ext_iff, String.data_append] at h
    exact String.ext (List.append_cancel_right h)
  | float =>
    rw [hfa] at h
    exact h
  | text =>
    rw [hfa] at h
    simp only [String.ext_iff, String.data_append] at h
    exact String.ext (List.append_cancel_left (List.append_cancel_right h))

/-- C17: for a fixed name the rendering of `Result.influxString` is injective
in the raw value; the field is the name, `=` and the rendered value; the
form of the rendered value (a leading double quote for text, a final `i`
for an integer, a float otherwise) is the form chosen for the raw value; so
raw values of different forms never have the same rendered value. -/
theorem render_injective (name a b : String) :
    ((Result.mk name a).influxString = (Result.mk name b).influxString → a = b) ∧
      (Result.mk name a).influxString = name ++ "=" ++ renderValue a ∧
      renderedForm (renderValue a) = rawForm a ∧
      (rawForm a ≠ rawForm b → renderValue a ≠ renderValue b) := by
  refine ⟨?_, influxString_eq_render name a, renderedForm_render a, ?_⟩
  · intro h
    rw [influxString_eq_render, influxString_eq_render] at h
    apply renderValue_injective
    simp only [String.ext_iff, String.data_append] at h
    exact String.ext (List.append_cancel_left h)
  · intro hne heq
    apply hne
    rw [← renderedForm_render a, ← renderedForm_render b, heq]

theorem render_injective_witness :
    ("3.14" : String) = "3.14" ∧
      (Result.mk "uptime" "42").influxString = "uptime" ++ "=" ++ renderValue "42" ∧
      renderedForm (renderValue "1e5") = rawForm "1e5" ∧
      renderValue "42" ≠ renderValue "42i" :=
  ⟨(render_injective "uptime" "3.14" "3.14").1 rfl,
    (render_injective "uptime" "42" "42i").2.1,
    (render_injective "uptime" "1e5" "42i").2.2.1,
    (render_injective "uptime" "42" "42i").2.2.2 (by decide)⟩

set_option maxRecDepth 100000 in
/-- C18: the 14 output names of the built-in table are pairwise distinct and
each (service, action) pair occupies one contiguous run of the table; hence
the fields of the line of any poll cycle on this table, one per kept entry,
have pairwise distinct names. -/
theorem names_distinct {W : Type} (root : upnp.Root W) (host : String) (st : Vars W) :
    Actions.length = 14 ∧
      (Actions.map ServiceActions.Name).Nodup ∧
      (collapseRuns (Actions.map (fun m => (m.Service, m.Action)))).Nodup ∧
      ((keptEntries root { st with sr := ⟨"wan", []⟩ } Actions).map (fun p => p.1.Name)).Nodup ∧
      cycleLine root Actions host st =
        "fritzbox" ++ ",host=\"" ++ host ++ "\",source=" ++ "wan" ++ " " ++
          ",".intercalate ((keptEntries root { st with sr := ⟨"wan", []⟩ } Actions).map fieldOf) := by
  have hnames : (Actions.map ServiceActions.Name).Nodup := by decide
  refine ⟨rfl, hnames, by decide, ?_, cycleLine_eq root Actions host st⟩
  have hsub : ((keptEntries root { st with sr := ⟨"wan", []⟩ } Actions).map Prod.fst).Sublist
      Actions := by
    unfold keptEntries
    exact ((List.filter_sublist _).map Prod.fst).trans (succeeded_sublist root Actions _)
  have hmap : (keptEntries root { st with sr := ⟨"wan", []⟩ } Actions).map (fun p => p.1.Name) =
      ((keptEntries root { st with sr := ⟨"wan", []⟩ } Actions).map Prod.fst).map
        ServiceActions.Name := by
    rw [List.map_map]
    rfl
  rw [hmap]
  exact hnames.sublist (hsub.map ServiceActions.Name)
